import Mathlib

/-!
Verification development for the Habit-Vault streak/schedule engine.

Calendar dates are modelled at day granularity as integers counting days
since 1970-01-01 (the Unix epoch day, a Thursday), so the weekday of day
`d` in JavaScript's `getDay` numbering (0 = Sunday) is `(d + 4) % 7` with
Euclidean remainder.  All entry dates in the repository are date-typed
(`YYYY-MM-DD`, midnight UTC), so JavaScript millisecond differences are
exact multiples of a day and `Math.ceil(|Δms| / 86400000)` is exactly the
integer day distance; the embedding therefore works directly with day
numbers.

The recurrence rule is stored in the source as a string: one of
"everyday", "weekdays", "weekends", a JSON array of weekday names, or
anything else.  The embedding abstracts the call to `JSON.parse` (a
library call, not repository code) by its outcome: a custom rule is
either a parsed list of day-name strings, or `malformedCustom` when the
string starts with "[" but parsing throws, and `other` stands for any
remaining plain string.  Every branch of the source survives as a branch
of the embedding.
-/

namespace HabitVault

/-- JavaScript day-of-week of a day number (0 = Sunday … 6 = Saturday);
1970-01-01 (day 0) was a Thursday, hence the +4 offset. -/
def dayOfWeek (d : Int) : Int := (d + 4) % 7

/-- The dayNames array of date-utils.ts and completion-heatmap.tsx,
indexed by getDay. -/
def dayNames : List String :=
  ["sunday", "monday", "tuesday", "wednesday", "thursday", "friday", "saturday"]

/-- dayNames[dayOfWeek], as the source indexes the array. -/
def dayName (w : Int) : String := dayNames.getD w.toNat ""

/-- date-fns isWeekend: Saturday or Sunday. -/
def isWeekendDay (d : Int) : Bool := dayOfWeek d == 0 || dayOfWeek d == 6

/-- Howard Hinnant's civil-from-days inverse, specialised to CE dates
(`y ≥ 1`, `1 ≤ m ≤ 12`, `1 ≤ d`): the day number of the calendar date
y-m-d counted from 1970-01-01.  Used only to name concrete dates. -/
def daysFromCivil (y m d : Nat) : Int :=
  let y' := if m ≤ 2 then y - 1 else y
  let era := y' / 400
  let yoe := y' % 400
  let mp := (m + 9) % 12
  let doy := (153 * mp + 2) / 5 + (d - 1)
  let doe := yoe * 365 + yoe / 4 - yoe / 100 + doy
  (era : Int) * 146097 + (doe : Int) - 719468

/-- The habit's targetDays string, abstracted by the outcome of the
string tests and JSON.parse performed by the source (see header). -/
inductive TargetDays where
  | everyday
  | weekdays
  | weekends
  /-- a string starting with "[" that JSON.parse turns into this list of
  day-name strings -/
  | custom (days : List String)
  /-- a string starting with "[" on which JSON.parse throws -/
  | malformedCustom
  /-- any other plain string -/
  | other
deriving DecidableEq

/-- A row of habit_entries as the calculator consumes it: calendar date
plus completion flag (shared/schema.ts).  The id/habitId/userId columns
do not enter the streak computations. -/
structure HabitEntry where
  date : Int
  completed : Bool
deriving DecidableEq

/-- The fields of a habit that the streak engine reads
(shared/schema.ts): recurrence rule and start date. -/
structure Habit where
  targetDays : TargetDays
  startDate : Int
deriving DecidableEq

/-- isDateActive of date-utils.ts: the schedule predicate.  The source
checks the three keyword strings in order, then tries JSON.parse on a
string starting with "[" (returning false when it throws), and returns
false for anything else. -/
def isDateActive (date : Int) (targetDays : TargetDays) : Bool :=
  match targetDays with
  | .everyday => true
  | .weekdays => !(isWeekendDay date)
  | .weekends => isWeekendDay date
  | .custom days => days.contains (dayName (dayOfWeek date))
  | .malformedCustom => false
  | .other => false

/-- Comparator of the source's ascending sort
(.sort((a, b) => dateA - dateB)). -/
def dateLE (a b : HabitEntry) : Prop := a.date ≤ b.date

/-- Comparator of the source's descending sort
(.sort((a, b) => dateB - dateA)). -/
def dateGE (a b : HabitEntry) : Prop := b.date ≤ a.date

instance : DecidableRel dateLE := fun a b => inferInstanceAs (Decidable (a.date ≤ b.date))

instance : DecidableRel dateGE := fun a b => inferInstanceAs (Decidable (b.date ≤ a.date))

instance : IsTotal HabitEntry dateLE := ⟨fun a b => Int.le_total a.date b.date⟩

instance : IsTrans HabitEntry dateLE := ⟨fun _ _ _ h h' => le_trans h h'⟩

instance : IsTotal HabitEntry dateGE := ⟨fun a b => Int.le_total b.date a.date⟩

instance : IsTrans HabitEntry dateGE := ⟨fun _ _ _ h h' => le_trans h' h⟩

/-- Sorting oldest-first, as calculateLongestStreak does. -/
def sortAsc (es : List HabitEntry) : List HabitEntry := List.insertionSort dateLE es

/-- Sorting newest-first, as calculateCurrentStreak and the GET
/api/habits route do. -/
def sortDesc (es : List HabitEntry) : List HabitEntry := List.insertionSort dateGE es

/-- The backward day-by-day walk of calculateCurrentStreak
(streak-utils, part_001 lines 46-74).  The source loop is
`while (true)`, so the embedding threads explicit fuel: `none` means the
walk has not finished within the given number of iterations.  Each
iteration either skips a non-scheduled day, breaks on a missing or
not-completed entry (returning the streak), or counts a completed entry
and breaks when the next day falls before the habit's start date. -/
def currentStreakLoop (h : Habit) (sorted : List HabitEntry) :
    Int → Nat → Nat → Option Nat
  | _, _, 0 => none
  | checkDate, streak, fuel + 1 =>
    if isDateActive checkDate h.targetDays then
      match sorted.find? (fun e => e.date == checkDate) with
      | some e =>
        if e.completed then
          if checkDate - 1 < h.startDate then some (streak + 1)
          else currentStreakLoop h sorted (checkDate - 1) (streak + 1) fuel
        else some streak
      | none => some streak
    else currentStreakLoop h sorted (checkDate - 1) streak fuel

/-- calculateCurrentStreak (part_001 lines 5-77), with "today" made an
explicit parameter (the source reads `new Date()`) and fuel for the
unbounded walk.  Empty entry list returns 0; a completed entry dated
today seeds the streak with 1; otherwise a scheduled today returns 0 and
a non-scheduled today is skipped; then the walk starts at yesterday. -/
def calculateCurrentStreak (h : Habit) (entries : List HabitEntry)
    (today : Int) (fuel : Nat) : Option Nat :=
  if entries.isEmpty then some 0
  else
    let sorted := sortDesc entries
    match sorted.find? (fun e => e.date == today) with
    | some e =>
      if e.completed then currentStreakLoop h sorted (today - 1) 1 fuel
      else if isDateActive today h.targetDays then some 0
      else currentStreakLoop h sorted (today - 1) 0 fuel
    | none =>
      if isDateActive today h.targetDays then some 0
      else currentStreakLoop h sorted (today - 1) 0 fuel

/-- The inner gap check of calculateLongestStreak: the source walks
tempDate = previousDate + i for i = 1 … diffDays-1 and declares the run
broken when any of those days is active.  True when every strictly
intermediate day is non-scheduled. -/
def gapFreeOfActive (h : Habit) (p : Int) (diff : Nat) : Bool :=
  (List.range' 1 (diff - 1)).all (fun i => !isDateActive (p + (i : Int)) h.targetDays)

/-- The fold of calculateLongestStreak over the ascending entry list
(part_001 lines 94-137): state is (previousDate, currentStreak,
longestStreak); non-completed entries are skipped without touching the
state; a completed entry extends the run when the day gap is 1 or all
intermediate days are non-scheduled, else resets it to 1. -/
def longestGo (h : Habit) : List HabitEntry → Option Int → Nat → Nat → Nat
  | [], _, _, longest => longest
  | e :: rest, prev, cur, longest =>
    if e.completed then
      match prev with
      | none => longestGo h rest (some e.date) 1 (max longest 1)
      | some p =>
        let diff := (e.date - p).natAbs
        let newCur :=
          if diff = 1 then cur + 1
          else if gapFreeOfActive h p diff then cur + 1
          else 1
        longestGo h rest (some e.date) newCur (max longest newCur)
    else longestGo h rest prev cur longest

/-- calculateLongestStreak (part_001 lines 80-140). -/
def calculateLongestStreak (h : Habit) (entries : List HabitEntry) : Nat :=
  if entries.isEmpty then 0 else longestGo h (sortAsc entries) none 0 0

/-- The current-streak loop of the GET /api/habits route (part_000 lines
51-61): over the newest-first entry list, count leading completed
entries, breaking at the first non-completed one.  The recurrence rule
is never consulted. -/
def serverCurrentGo : List HabitEntry → Nat
  | [] => 0
  | e :: rest => if e.completed then serverCurrentGo rest + 1 else 0

/-- currentStreak computed by the GET /api/habits route. -/
def serverCurrentStreak (entries : List HabitEntry) : Nat :=
  serverCurrentGo (sortDesc entries)

/-- The longest-streak loop of the GET /api/habits route (part_000 lines
63-76): maximum run of completed entries in the newest-first list, with
a final max against the trailing run. -/
def serverLongestGo : List HabitEntry → Nat → Nat → Nat
  | [], temp, longest => max longest temp
  | e :: rest, temp, longest =>
    if e.completed then serverLongestGo rest (temp + 1) longest
    else serverLongestGo rest 0 (max longest temp)

/-- longestStreak computed by the GET /api/habits route. -/
def serverLongestStreak (entries : List HabitEntry) : Nat :=
  serverLongestGo (sortDesc entries) 0 0

/-- A habit as the heatmap reads it (id, rule, start date). -/
structure HeatHabit where
  id : Nat
  targetDays : TargetDays
  startDate : Int
deriving DecidableEq

/-- An entry as the heatmap receives it from GET /api/entries. -/
structure HeatEntry where
  habitId : Nat
  date : Int
  completed : Bool
deriving DecidableEq

/-- groupEntriesByHabitAndDate followed by the double lookup
`entriesByHabitAndDate[habitId][date]` (completion-heatmap.tsx lines
14-30): the grouping object keeps, per (habitId, date), the completed
flag of the last entry written, hence getLast? over the matching
entries. -/
def heatLookup (entries : List HeatEntry) (hid : Nat) (d : Int) : Option Bool :=
  ((entries.filter (fun e => e.habitId == hid && e.date == d)).getLast?).map
    (fun e => e.completed)

/-- The schedule test inlined in getCellColor (completion-heatmap.tsx
lines 74-97), written as one boolean: the source returns "bg-gray-100"
early for (weekdays ∧ weekend day), for (weekends ∧ non-weekend day) and
for a parsed custom list not containing the weekday name, and otherwise
falls through to the entry checks; in particular a custom rule whose
JSON.parse throws falls through (the source comments: treat as
everyday), as do "everyday" and any unrecognized plain string. -/
def cellScheduled (td : TargetDays) (date : Int) : Bool :=
  match td with
  | .weekdays => !(dayOfWeek date == 0 || dayOfWeek date == 6)
  | .weekends => dayOfWeek date == 0 || dayOfWeek date == 6
  | .custom days => days.contains (dayName (dayOfWeek date))
  | .everyday => true
  | .malformedCustom => true
  | .other => true

/-- The green shade chosen by getCellColor from the streak length
(completion-heatmap.tsx lines 132-138). -/
def greenOf (streak : Nat) : String :=
  if streak ≤ 1 then "bg-green-300"
  else if streak ≤ 3 then "bg-green-400"
  else if streak ≤ 7 then "bg-green-500"
  else if streak ≤ 14 then "bg-green-600"
  else if streak ≤ 30 then "bg-green-700"
  else "bg-green-800"

/-- The streak-counting loop inside getCellColor's completed branch
(completion-heatmap.tsx lines 117-130): count consecutive days ending at
d whose lookup is a completed entry.  The source loop is while (true);
it stops because at most entries.length distinct days can have an entry,
so fuel entries.length + 1 (supplied by getCellColor) is never
exhausted. -/
def heatStreakGo (entries : List HeatEntry) (hid : Nat) : Int → Nat → Nat
  | _, 0 => 0
  | d, fuel + 1 =>
    if heatLookup entries hid d == some true then heatStreakGo entries hid (d - 1) fuel + 1
    else 0

/-- getCellColor (completion-heatmap.tsx lines 54-142): per-date display
classification, returning the CSS class the source returns.  Branch
order as in the source: future date, unknown habit, before start date,
schedule test, then entry presence/flag (no entry: pending today or
missed; entry false: marked missed; entry true: green by streak). -/
def getCellColor (habits : List HeatHabit) (entries : List HeatEntry)
    (today : Int) (habitId : Nat) (date : Int) (targetDays : TargetDays) : String :=
  if today < date then "bg-gray-50"
  else
    match habits.find? (fun hh => hh.id == habitId) with
    | none => "bg-gray-100"
    | some habit =>
      if date < habit.startDate then "bg-gray-100"
      else if !(cellScheduled targetDays date) then "bg-gray-100"
      else
        match heatLookup entries habitId date with
        | none => if date == today then "bg-gray-300" else "bg-red-400"
        | some false => "bg-orange-400"
        | some true => greenOf (heatStreakGo entries habitId date (entries.length + 1))

/-- A stored habit_entries row (server/storage.ts MemStorage). -/
structure StoredEntry where
  id : Nat
  habitId : Nat
  userId : Nat
  date : Int
  completed : Bool
deriving DecidableEq

/-- The entry-relevant part of MemStorage: the habitEntries map (a JS
Map iterated in insertion order, hence a list) and the id counter. -/
structure StoreState where
  entries : List StoredEntry
  nextId : Nat
deriving DecidableEq

/-- MemStorage.getHabitEntryByDate: first entry matching habit and
calendar date in iteration order. -/
def getHabitEntryByDate (s : StoreState) (hid : Nat) (d : Int) : Option StoredEntry :=
  s.entries.find? (fun e => e.habitId == hid && e.date == d)

/-- MemStorage.createHabitEntry: insert with the next fresh id. -/
def createHabitEntry (s : StoreState) (hid uid : Nat) (d : Int) (c : Bool) : StoreState :=
  ⟨s.entries ++ [⟨s.nextId, hid, uid, d, c⟩], s.nextId + 1⟩

/-- MemStorage.updateHabitEntry with updates = \x7b completed \x7d: the
map entry at the given id is rewritten with the same fields except the
completed flag (JS Map.set on an existing key keeps its position). -/
def updateHabitEntry (s : StoreState) (id : Nat) (c : Bool) : StoreState :=
  ⟨s.entries.map (fun e => if e.id == id then { e with completed := c } else e), s.nextId⟩

/-- The successful path of POST /api/habits/:id/toggle (part_000 lines
183-233), after the habit-exists and ownership guards (which never touch
entries): upsert by (habit, date).  status is None for a plain toggle,
some true for body status "completed", some false for any other provided
status string. -/
def toggleOp (s : StoreState) (hid uid : Nat) (d : Int) (status : Option Bool) : StoreState :=
  match getHabitEntryByDate s hid d with
  | some e =>
    match status with
    | some b => updateHabitEntry s e.id b
    | none => updateHabitEntry s e.id (!e.completed)
  | none =>
    match status with
    | some b => createHabitEntry s hid uid d b
    | none => createHabitEntry s hid uid d true

/-- MemStorage.deleteHabit, restricted to its effect on entries: remove
every entry of the habit (DELETE /api/habits/:id). -/
def deleteHabitOp (s : StoreState) (hid : Nat) : StoreState :=
  ⟨s.entries.filter (fun e => !(e.habitId == hid)), s.nextId⟩

/-- Storage states reachable through the public habit-entry operations
of the routes: the empty initial store, toggles, and habit deletions.
The remaining routes (habit create/update, the GET routes) never modify
the entries map; failed guard paths leave the state unchanged; no route
calls deleteHabitEntry. -/
inductive Reachable : StoreState → Prop where
  | init : Reachable ⟨[], 1⟩
  | toggle {s} (hid uid : Nat) (d : Int) (status : Option Bool) :
      Reachable s → Reachable (toggleOp s hid uid d status)
  | deleteHabit {s} (hid : Nat) :
      Reachable s → Reachable (deleteHabitOp s hid)

/-- At most one entry per (habit, date) pair. -/
def UniqueEntries (s : StoreState) : Prop :=
  ∀ e₁ ∈ s.entries, ∀ e₂ ∈ s.entries,
    e₁.habitId = e₂.habitId → e₁.date = e₂.date → e₁ = e₂

/-- Auxiliary storage invariant: ids are bounded by the counter and
pairwise distinct (MemStorage keys the map by id). -/
def StoreInv (s : StoreState) : Prop :=
  UniqueEntries s ∧ (∀ e ∈ s.entries, e.id < s.nextId) ∧ (s.entries.map (fun e => e.id)).Nodup

/-- Strict date order on entries: sorted lists over it are unique among
permutations, which identifies the two sides of sort/filter exchanges
when entry dates are pairwise distinct. -/
def dateLT (a b : HabitEntry) : Prop := a.date < b.date

instance : DecidableRel dateLT := fun a b => inferInstanceAs (Decidable (a.date < b.date))

instance : IsAntisymm HabitEntry dateLT := ⟨fun _ _ h h' => absurd h' (lt_asymm h)⟩

/-- n completed entries on the consecutive days today, today-1, …,
today-(n-1), newest first: the family of inputs on which the server and
client streak computations agree. -/
def runEntries (today : Int) : Nat → List HabitEntry
  | 0 => []
  | n + 1 => ⟨today, true⟩ :: runEntries (today - 1) n

/-- The same run oldest-first: n completed entries on s, s+1, …,
s+(n-1). -/
def ascRun (s : Int) : Nat → List HabitEntry
  | 0 => []
  | n + 1 => ⟨s, true⟩ :: ascRun (s + 1) n

/-- A chain of the backward walk: strictly increasing days such that
every day strictly between two consecutive chain days is
non-scheduled. -/
def ChainLinked (h : Habit) (l : List Int) : Prop :=
  l.Chain' (fun a b => a < b ∧ ∀ x : Int, a < x → x < b → isDateActive x h.targetDays = false)

/-- The same chains listed newest-first, the order in which the
backward walk produces them. -/
def ChainLinkedDesc (h : Habit) (l : List Int) : Prop :=
  l.Chain' (fun a b => b < a ∧ ∀ x : Int, b < x → x < a → isDateActive x h.targetDays = false)

end HabitVault

namespace HabitVault

/-! ### General helper lemmas -/

theorem dayOfWeek_nonneg (d : Int) : 0 ≤ dayOfWeek d :=
  Int.emod_nonneg _ (by decide)

theorem dayOfWeek_lt (d : Int) : dayOfWeek d < 7 :=
  Int.emod_lt_of_pos _ (by decide)

/-- find? is insensitive to permutation when at most one element
satisfies the predicate. -/
theorem find?_perm_of_unique {α : Type} {p : α → Bool} {l₁ l₂ : List α}
    (hu : ∀ a ∈ l₁, ∀ b ∈ l₁, p a = true → p b = true → a = b)
    (hp : l₁.Perm l₂) : l₁.find? p = l₂.find? p := by
  cases h₁ : l₁.find? p with
  | some a =>
    have ha₁ : a ∈ l₁ := List.mem_of_find?_eq_some h₁
    have hpa : p a = true := List.find?_some h₁
    cases h₂ : l₂.find? p with
    | some b =>
      have hb : b ∈ l₁ := hp.symm.subset (List.mem_of_find?_eq_some h₂)
      exact congrArg some (hu a ha₁ b hb hpa (List.find?_some h₂)).symm ▸ rfl
    | none =>
      exact absurd hpa (List.find?_eq_none.1 h₂ a (hp.subset ha₁))
  | none =>
    cases h₂ : l₂.find? p with
    | some b =>
      have hb : b ∈ l₁ := hp.symm.subset (List.mem_of_find?_eq_some h₂)
      exact absurd (List.find?_some h₂) (List.find?_eq_none.1 h₁ b hb)
    | none => rfl

/-- Filtering out elements that cannot satisfy the predicate does not
change find?. -/
theorem find?_filter_of_imp {α : Type} {p q : α → Bool} :
    ∀ {l : List α}, (∀ a ∈ l, p a = true → q a = true) →
      (l.filter q).find? p = l.find? p
  | [], _ => rfl
  | a :: l, himp => by
    by_cases hq : q a = true
    · rw [List.filter_cons_of_pos hq]
      by_cases hp : p a = true
      · rw [List.find?_cons_of_pos _ hp, List.find?_cons_of_pos _ hp]
      · rw [List.find?_cons_of_neg _ hp, List.find?_cons_of_neg _ hp]
        exact find?_filter_of_imp (fun b hb => himp b (List.mem_cons_of_mem _ hb))
    · have hp : ¬ p a = true := fun hpa => hq (himp a (List.mem_cons_self a l) hpa)
      rw [List.filter_cons_of_neg (by simpa using hq), List.find?_cons_of_neg _ hp]
      exact find?_filter_of_imp (fun b hb => himp b (List.mem_cons_of_mem _ hb))

/-- With pairwise-distinct entry dates, at most one entry matches a
date lookup. -/
theorem unique_date_lookup {es : List HabitEntry} (hnd : (es.map (fun e => e.date)).Nodup)
    (d : Int) : ∀ a ∈ es, ∀ b ∈ es,
      (a.date == d) = true → (b.date == d) = true → a = b := by
  intro a ha b hb hpa hpb
  exact List.inj_on_of_nodup_map hnd ha hb (by
    rw [beq_iff_eq] at hpa hpb; rw [hpa, hpb])

theorem sortDesc_perm (es : List HabitEntry) : (sortDesc es).Perm es :=
  List.perm_insertionSort dateGE es

theorem sortAsc_perm (es : List HabitEntry) : (sortAsc es).Perm es :=
  List.perm_insertionSort dateLE es

/-- Date lookup on the descending-sorted list agrees with lookup on the
raw entry list when dates are unique. -/
theorem lookup_sortDesc_eq {es : List HabitEntry} (hnd : (es.map (fun e => e.date)).Nodup)
    (d : Int) :
    (sortDesc es).find? (fun e => e.date == d) = es.find? (fun e => e.date == d) := by
  refine find?_perm_of_unique ?_ (sortDesc_perm es)
  intro a ha b hb hpa hpb
  exact unique_date_lookup hnd d a ((sortDesc_perm es).subset ha)
    b ((sortDesc_perm es).subset hb) hpa hpb

/-- Nodup dates survive filter. -/
theorem nodup_dates_filter {es : List HabitEntry} (hnd : (es.map (fun e => e.date)).Nodup)
    (q : HabitEntry → Bool) : ((es.filter q).map (fun e => e.date)).Nodup :=
  List.Nodup.sublist (List.Sublist.map _ (List.filter_sublist es)) hnd

/-! ### Claim C6: the schedule predicate -/

/-- C6.  For every calendar date the schedule predicate isDateActive is:
always true under everyday; true exactly on Monday–Friday (getDay
numbers 1..5) under weekdays; true exactly on Saturday/Sunday under
weekends; and under a parsed custom rule true exactly when the date's
weekday name belongs to the rule's day list. -/
theorem isDateActive_spec (d : Int) (days : List String) :
    isDateActive d .everyday = true
    ∧ (isDateActive d .weekdays = true ↔ 1 ≤ dayOfWeek d ∧ dayOfWeek d ≤ 5)
    ∧ (isDateActive d .weekends = true ↔ (dayOfWeek d = 0 ∨ dayOfWeek d = 6))
    ∧ (isDateActive d (.custom days) = true ↔ dayName (dayOfWeek d) ∈ days) := by
  have h0 := dayOfWeek_nonneg d
  have h7 := dayOfWeek_lt d
  refine ⟨rfl, ?_, ?_, ?_⟩
  · simp only [isDateActive, isWeekendDay, Bool.not_eq_true', Bool.or_eq_false_iff,
      beq_eq_false_iff_ne, ne_eq]
    omega
  · simp only [isDateActive, isWeekendDay, Bool.or_eq_true, beq_iff_eq]
  · simp [isDateActive]

/-! ### Claim C8: the weekdays scenario -/

/-- The habit of the C8 scenario: rule weekdays, start 2024-01-01. -/
def habitC8 : Habit := ⟨.weekdays, daysFromCivil 2024 1 1⟩

/-- The entries of the C8 scenario: completed Mon 2024-01-01 … Fri
2024-01-05 and Mon 2024-01-08. -/
def entriesC8 : List HabitEntry :=
  [⟨daysFromCivil 2024 1 1, true⟩, ⟨daysFromCivil 2024 1 2, true⟩,
   ⟨daysFromCivil 2024 1 3, true⟩, ⟨daysFromCivil 2024 1 4, true⟩,
   ⟨daysFromCivil 2024 1 5, true⟩, ⟨daysFromCivil 2024 1 8, true⟩]

/-- C8.  In the scenario (weekdays habit started Monday 2024-01-01,
completions Jan 1–5 and Jan 8, nothing on the weekend) the longest
streak is 6, and with today = 2024-01-08 the current streak is 6 (the
walk finishes well within 50 iterations).  2024-01-01 is indeed a
Monday in the day-number model. -/
theorem scenario_weekdays_streaks :
    dayOfWeek (daysFromCivil 2024 1 1) = 1
    ∧ calculateLongestStreak habitC8 entriesC8 = 6
    ∧ calculateCurrentStreak habitC8 entriesC8 (daysFromCivil 2024 1 8) 50 = some 6 :=
  ⟨by decide, by decide, by decide⟩

/-! ### Claim C1: termination of the streak computations -/

/-- When the rule schedules no day at all, every iteration of the
source's while (true) walk takes the skip branch, so the loop never
breaks: no amount of fuel produces a result. -/
theorem currentStreakLoop_never_active (h : Habit)
    (hnever : ∀ c : Int, isDateActive c h.targetDays = false)
    (sorted : List HabitEntry) :
    ∀ (fuel : Nat) (c : Int) (s : Nat), currentStreakLoop h sorted c s fuel = none := by
  intro fuel
  induction fuel with
  | zero => intro c s; rfl
  | succ n ih =>
    intro c s
    simp only [currentStreakLoop, hnever c, Bool.false_eq_true, if_false]
    exact ih (c - 1) s

/-- The habit exhibiting the non-termination: a custom rule whose day
set is empty, as produced by the rule string "[]". -/
def habitNeverScheduled : Habit := ⟨.custom [], 0⟩

/-- C1 (failing input).  calculateCurrentStreak with the never-scheduled
custom rule "[]", one completed entry dated day 5 and today = day 10
diverges: for every fuel bound the backward walk is still running, i.e.
the source's while (true) loop never terminates, contradicting the
spec's guarantee of a bounded loop on malformed data. -/
theorem calculateCurrentStreak_diverges :
    ∀ fuel : Nat,
      calculateCurrentStreak habitNeverScheduled [⟨5, true⟩] 10 fuel = none := by
  intro fuel
  have hnever : ∀ c : Int, isDateActive c habitNeverScheduled.targetDays = false :=
    fun _ => rfl
  show calculateCurrentStreak habitNeverScheduled [⟨5, true⟩] 10 fuel = none
  unfold calculateCurrentStreak
  simp only [List.isEmpty_cons, if_false]
  have hfind : (sortDesc [(⟨5, true⟩ : HabitEntry)]).find? (fun e => e.date == 10) = none := by
    decide
  rw [hfind]
  simp only [hnever 10, Bool.false_eq_true, if_false]
  exact currentStreakLoop_never_active _ hnever _ fuel _ _

/-! ### Claim C7: malformed custom rules -/

/-- C7 (counterexample).  With an unparseable custom rule, the schedule
predicate does return false, but the heatmap classifier does not
classify the date as not-scheduled ("bg-gray-100"): a past date with no
entry is classified missed ("bg-red-400"). -/
theorem malformed_cell_not_grey :
    isDateActive 5 .malformedCustom = false
    ∧ getCellColor [⟨1, .malformedCustom, 0⟩] [] 10 1 5 .malformedCustom = "bg-red-400"
    ∧ "bg-red-400" ≠ "bg-gray-100" :=
  ⟨rfl, by decide, by decide⟩

/-- C7 (amended).  For a malformed custom rule the schedule predicate
isDateActive returns false on every date (and, being a total function,
never throws); the heatmap classifier getCellColor instead treats the
unparseable rule exactly like the everyday rule — its catch block falls
through to the entry checks — so it classifies such dates by entry
presence and flag rather than as not-scheduled. -/
theorem malformed_predicate_false_cell_everyday (d : Int) (habits : List HeatHabit)
    (entries : List HeatEntry) (today : Int) (hid : Nat) (date : Int) :
    isDateActive d .malformedCustom = false
    ∧ getCellColor habits entries today hid date .malformedCustom
        = getCellColor habits entries today hid date .everyday :=
  ⟨rfl, rfl⟩

end HabitVault

namespace HabitVault

/-! ### Claim C10: at most one entry per (habit, date) -/

theorem updateHabitEntry_preserves (s : StoreState) (id : Nat) (c : Bool)
    (hs : StoreInv s) : StoreInv (updateHabitEntry s id c) := by
  obtain ⟨hu, hbound, hnd⟩ := hs
  set f : StoredEntry → StoredEntry :=
    fun e => if e.id == id then { e with completed := c } else e with hf
  have hfields : ∀ e : StoredEntry,
      (f e).id = e.id ∧ (f e).habitId = e.habitId ∧ (f e).date = e.date := by
    intro e
    rw [hf]
    dsimp only
    split <;> exact ⟨rfl, rfl, rfl⟩
  refine ⟨?_, ?_, ?_⟩
  · intro a₁ h₁ a₂ h₂ hh hd
    obtain ⟨b₁, hb₁, rfl⟩ := List.mem_map.1 h₁
    obtain ⟨b₂, hb₂, rfl⟩ := List.mem_map.1 h₂
    have e₁ := hfields b₁
    have e₂ := hfields b₂
    have : b₁ = b₂ := hu b₁ hb₁ b₂ hb₂
      (by rw [← e₁.2.1, ← e₂.2.1]; exact hh)
      (by rw [← e₁.2.2, ← e₂.2.2]; exact hd)
    rw [this]
  · intro e he
    obtain ⟨b, hb, rfl⟩ := List.mem_map.1 he
    rw [(hfields b).1]
    exact hbound b hb
  · show ((s.entries.map f).map (fun e => e.id)).Nodup
    rw [List.map_map]
    have : s.entries.map ((fun e : StoredEntry => e.id) ∘ f)
        = s.entries.map (fun e => e.id) :=
      List.map_congr_left (fun a _ => (hfields a).1)
    rw [this]
    exact hnd

theorem createHabitEntry_preserves (s : StoreState) (hid uid : Nat) (d : Int) (c : Bool)
    (hs : StoreInv s)
    (hnone : ∀ e ∈ s.entries, ¬(e.habitId = hid ∧ e.date = d)) :
    StoreInv (createHabitEntry s hid uid d c) := by
  obtain ⟨hu, hbound, hnd⟩ := hs
  refine ⟨?_, ?_, ?_⟩
  · intro a₁ h₁ a₂ h₂ hh hd
    rcases List.mem_append.1 h₁ with h₁ | h₁ <;>
      rcases List.mem_append.1 h₂ with h₂ | h₂
    · exact hu a₁ h₁ a₂ h₂ hh hd
    · rw [List.mem_singleton.1 h₂] at hh hd
      exact absurd ⟨hh, hd⟩ (hnone a₁ h₁)
    · rw [List.mem_singleton.1 h₁] at hh hd
      exact absurd ⟨hh.symm, hd.symm⟩ (hnone a₂ h₂)
    · rw [List.mem_singleton.1 h₁, List.mem_singleton.1 h₂]
  · intro e he
    rcases List.mem_append.1 he with he | he
    · exact Nat.lt_succ_of_lt (hbound e he)
    · rw [List.mem_singleton.1 he]
      exact Nat.lt_succ_self _
  · show ((s.entries ++ [(⟨s.nextId, hid, uid, d, c⟩ : StoredEntry)]).map
      (fun e => e.id)).Nodup
    rw [List.map_append]
    refine List.nodup_append.2 ⟨hnd, List.nodup_singleton _, ?_⟩
    intro x hx hx'
    obtain ⟨b, hb, rfl⟩ := List.mem_map.1 hx
    have : b.id = s.nextId := by simpa using hx'
    exact absurd this (Nat.ne_of_lt (hbound b hb))

theorem toggleOp_preserves (s : StoreState) (hid uid : Nat) (d : Int)
    (status : Option Bool) (hs : StoreInv s) :
    StoreInv (toggleOp s hid uid d status) := by
  unfold toggleOp
  cases hfind : getHabitEntryByDate s hid d with
  | some e =>
    cases status with
    | some b => exact updateHabitEntry_preserves s e.id b hs
    | none => exact updateHabitEntry_preserves s e.id (!e.completed) hs
  | none =>
    have hnone : ∀ e ∈ s.entries, ¬(e.habitId = hid ∧ e.date = d) := by
      intro e he hpair
      have := List.find?_eq_none.1 hfind e he
      simp only [Bool.and_eq_true, beq_iff_eq, not_and] at this
      exact this hpair.1 hpair.2
    cases status with
    | some b => exact createHabitEntry_preserves s hid uid d b hs hnone
    | none => exact createHabitEntry_preserves s hid uid d true hs hnone

theorem deleteHabitOp_preserves (s : StoreState) (hid : Nat) (hs : StoreInv s) :
    StoreInv (deleteHabitOp s hid) := by
  obtain ⟨hu, hbound, hnd⟩ := hs
  refine ⟨?_, ?_, ?_⟩
  · intro a₁ h₁ a₂ h₂ hh hd
    exact hu a₁ (List.mem_of_mem_filter h₁) a₂ (List.mem_of_mem_filter h₂) hh hd
  · intro e he
    exact hbound e (List.mem_of_mem_filter he)
  · exact List.Nodup.sublist
      (List.Sublist.map _ (List.filter_sublist s.entries)) hnd

theorem reachable_storeInv {s : StoreState} (hs : Reachable s) : StoreInv s := by
  induction hs with
  | init =>
    refine ⟨?_, ?_, ?_⟩
    · intro a₁ h₁; exact absurd h₁ (List.not_mem_nil a₁)
    · intro e he; exact absurd he (List.not_mem_nil e)
    · exact List.nodup_nil
  | toggle hid uid d status _ ih => exact toggleOp_preserves _ hid uid d status ih
  | deleteHabit hid _ ih => exact deleteHabitOp_preserves _ hid ih

/-- C10.  In every storage state reachable through the public
habit-entry operations (the initial empty store, the toggle/upsert
endpoint, habit deletion) each (habit, date) pair carries at most one
entry: the toggle endpoint updates the entry found by
getHabitEntryByDate when one exists and creates a fresh entry only when
the lookup comes back empty. -/
theorem reachable_unique_entries {s : StoreState} (hs : Reachable s) :
    UniqueEntries s :=
  (reachable_storeInv hs).1

/-- Witness: after toggling habit 1 on day 5 twice (create then update)
and toggling habit 2 on day 5 once, the reachable store satisfies the
uniqueness invariant. -/
theorem reachable_unique_entries_witness :
    UniqueEntries (toggleOp (toggleOp (toggleOp ⟨[], 1⟩ 1 1 5 none) 1 1 5 none)
      2 1 5 (some false)) :=
  reachable_unique_entries
    (Reachable.toggle 2 1 5 (some false)
      (Reachable.toggle 1 1 5 none
        (Reachable.toggle 1 1 5 none Reachable.init)))

end HabitVault

namespace HabitVault

/-! ### Claim C9: per-date display classification precedence -/

/-- C9 (amended).  For a habit found in the list, getCellColor applies
the precedence: future ("bg-gray-50") when the date is after today;
else before-start ("bg-gray-100") when the date precedes the habit's
start date; else not-scheduled ("bg-gray-100") when the classifier's
internal schedule test cellScheduled is false; else the date is
classified by the presence and flag of its entry — pending-today
("bg-gray-300") for today with no entry, missed ("bg-red-400") for a
past date with no entry, marked-missed ("bg-orange-400") for an entry
with flag false, and a completed green shade for an entry with flag
true.  The internal schedule test coincides with the schedule predicate
isDateActive on the everyday, weekdays, weekends and parsed custom
rules (final conjunct); it deviates only on unparseable or unrecognized
rules, which it treats as scheduled. -/
theorem cell_precedence (habits : List HeatHabit) (entries : List HeatEntry)
    (today : Int) (hid : Nat) (date : Int) (td : TargetDays) (hh : HeatHabit)
    (hfind : habits.find? (fun x => x.id == hid) = some hh) :
    (today < date → getCellColor habits entries today hid date td = "bg-gray-50")
    ∧ (¬ today < date → date < hh.startDate →
        getCellColor habits entries today hid date td = "bg-gray-100")
    ∧ (¬ today < date → ¬ date < hh.startDate → cellScheduled td date = false →
        getCellColor habits entries today hid date td = "bg-gray-100")
    ∧ (¬ today < date → ¬ date < hh.startDate → cellScheduled td date = true →
        (heatLookup entries hid date = none → date = today →
          getCellColor habits entries today hid date td = "bg-gray-300")
        ∧ (heatLookup entries hid date = none → date ≠ today →
          getCellColor habits entries today hid date td = "bg-red-400")
        ∧ (heatLookup entries hid date = some false →
          getCellColor habits entries today hid date td = "bg-orange-400")
        ∧ (heatLookup entries hid date = some true →
          getCellColor habits entries today hid date td
            = greenOf (heatStreakGo entries hid date (entries.length + 1))))
    ∧ (∀ (d : Int) (days : List String),
        cellScheduled .everyday d = isDateActive d .everyday
        ∧ cellScheduled .weekdays d = isDateActive d .weekdays
        ∧ cellScheduled .weekends d = isDateActive d .weekends
        ∧ cellScheduled (.custom days) d = isDateActive d (.custom days)) := by
  refine ⟨?_, ?_, ?_, ?_, fun d days => ⟨rfl, rfl, rfl, rfl⟩⟩
  · intro h1
    unfold getCellColor
    rw [if_pos h1]
  · intro h1 h2
    unfold getCellColor
    rw [if_neg h1, hfind]
    simp only [if_pos h2]
  · intro h1 h2 h3
    unfold getCellColor
    rw [if_neg h1, hfind]
    simp only [if_neg h2, h3, Bool.not_false, if_pos]
  · intro h1 h2 h3
    refine ⟨?_, ?_, ?_, ?_⟩
    · intro hl ht
      subst ht
      unfold getCellColor
      rw [if_neg h1, hfind]
      simp only [if_neg h2, h3, Bool.not_true, Bool.false_eq_true, if_false, hl]
      simp
    · intro hl ht
      unfold getCellColor
      rw [if_neg h1, hfind]
      simp only [if_neg h2, h3, Bool.not_true, Bool.false_eq_true, if_false, hl]
      rw [if_neg (by simpa using ht)]
    · intro hl
      unfold getCellColor
      rw [if_neg h1, hfind]
      simp only [if_neg h2, h3, Bool.not_true, Bool.false_eq_true, if_false, hl]
    · intro hl
      unfold getCellColor
      rw [if_neg h1, hfind]
      simp only [if_neg h2, h3, Bool.not_true, Bool.false_eq_true, if_false, hl]

/-- C9 (counterexample).  As stated the claim fails: with the
unparseable custom rule, day 4 (not future, not before the start date)
has schedule predicate false, yet getCellColor classifies it as missed
("bg-red-400"), not as not-scheduled ("bg-gray-100"). -/
theorem cell_precedence_counterexample :
    isDateActive 4 .malformedCustom = false
    ∧ ¬ (20 : Int) < 4
    ∧ ¬ (4 : Int) < 0
    ∧ getCellColor [⟨3, .malformedCustom, 0⟩] [] 20 3 4 .malformedCustom = "bg-red-400"
    ∧ "bg-red-400" ≠ "bg-gray-100" := by
  refine ⟨rfl, by decide, by decide, by decide, by decide⟩

/-- Witness for the amended C9 theorem at a concrete input: a date
after today is classified future. -/
theorem cell_precedence_witness :
    getCellColor [⟨2, .everyday, 0⟩] [] 3 2 7 .everyday = "bg-gray-50" :=
  (cell_precedence [⟨2, .everyday, 0⟩] [] 3 2 7 .everyday ⟨2, .everyday, 0⟩
    (by decide)).1 (by decide)

end HabitVault

namespace HabitVault

/-! ### Claim C2: a missed or absent scheduled day stops the walk -/

/-- Lookup on the sorted filtered list agrees with lookup on the sorted
full list for dates above the cut (unique dates). -/
theorem lookup_filter_gt {es : List HabitEntry} (hnd : (es.map (fun e => e.date)).Nodup)
    {b d : Int} (hd : b < d) :
    (sortDesc (es.filter (fun e => decide (b < e.date)))).find? (fun e => e.date == d)
      = (sortDesc es).find? (fun e => e.date == d) := by
  rw [lookup_sortDesc_eq hnd d,
    lookup_sortDesc_eq (nodup_dates_filter hnd (fun e => decide (b < e.date))) d]
  exact find?_filter_of_imp (fun a _ hpa => by
    rw [beq_iff_eq] at hpa
    rw [hpa]
    exact decide_eq_true hd)

/-- The walk over an empty entry list can only return the streak it was
given (it breaks at the first scheduled day, finding nothing). -/
theorem currentStreakLoop_nil_value (h : Habit) :
    ∀ (fuel : Nat) (c : Int) (s r : Nat),
      currentStreakLoop h [] c s fuel = some r → r = s := by
  intro fuel
  induction fuel with
  | zero => intro c s r hr; exact absurd hr (by simp [currentStreakLoop])
  | succ n ih =>
    intro c s r hr
    rw [currentStreakLoop] at hr
    by_cases hc : isDateActive c h.targetDays = true
    · rw [if_pos hc] at hr
      simp only [List.find?_nil, Option.some.injEq] at hr
      exact hr.symm
    · rw [if_neg hc] at hr
      exact ih (c - 1) s r hr

end HabitVault

namespace HabitVault

/-- One-step unfolding of the walk (definitional). -/
theorem currentStreakLoop_succ (h : Habit) (sorted : List HabitEntry)
    (c : Int) (s fuel : Nat) :
    currentStreakLoop h sorted c s (fuel + 1) =
      if isDateActive c h.targetDays then
        match sorted.find? (fun e => e.date == c) with
        | some e =>
          if e.completed then
            if c - 1 < h.startDate then some (s + 1)
            else currentStreakLoop h sorted (c - 1) (s + 1) fuel
          else some s
        | none => some s
      else currentStreakLoop h sorted (c - 1) s fuel := rfl

/-- Unfolding of calculateCurrentStreak (definitional). -/
theorem calculateCurrentStreak_eq (h : Habit) (entries : List HabitEntry)
    (today : Int) (fuel : Nat) :
    calculateCurrentStreak h entries today fuel =
      if entries.isEmpty then some 0
      else
        match (sortDesc entries).find? (fun e => e.date == today) with
        | some e =>
          if e.completed then currentStreakLoop h (sortDesc entries) (today - 1) 1 fuel
          else if isDateActive today h.targetDays then some 0
          else currentStreakLoop h (sortDesc entries) (today - 1) 0 fuel
        | none =>
          if isDateActive today h.targetDays then some 0
          else currentStreakLoop h (sortDesc entries) (today - 1) 0 fuel := rfl

/-- Core of C2: when day b is scheduled but carries no completed entry,
the walk started at c ≥ b (with fuel just covering the distance down to
b) terminates, and entries dated at or before b are irrelevant: the walk
over the full list equals the walk over the list filtered to dates
strictly after b. -/
theorem currentStreakLoop_break_agree (h : Habit) (es : List HabitEntry)
    (hnd : (es.map (fun e => e.date)).Nodup) (b : Int)
    (hact : isDateActive b h.targetDays = true)
    (hmiss : ∀ e ∈ es, e.date = b → e.completed = false) :
    ∀ (n : Nat) (c : Int) (s : Nat), b ≤ c → (c - b).toNat = n →
      currentStreakLoop h (sortDesc es) c s (n + 1)
        = currentStreakLoop h (sortDesc (es.filter (fun e => decide (b < e.date)))) c s (n + 1)
      ∧ (currentStreakLoop h (sortDesc es) c s (n + 1)).isSome := by
  intro n
  induction n with
  | zero =>
    intro c s hbc hcb
    have hc : b = c := by omega
    subst hc
    rw [currentStreakLoop_succ, currentStreakLoop_succ, if_pos hact, if_pos hact]
    have hR : (sortDesc (es.filter (fun e => decide (b < e.date)))).find?
        (fun e => e.date == b) = none := by
      cases hf : (sortDesc (es.filter (fun e => decide (b < e.date)))).find?
          (fun e => e.date == b) with
      | none => rfl
      | some e =>
        have hmem : e ∈ es.filter (fun e => decide (b < e.date)) :=
          (sortDesc_perm _).subset (List.mem_of_find?_eq_some hf)
        have hgt : b < e.date := by
          have := (List.mem_filter.1 hmem).2
          simpa using this
        have hdate : e.date = b := by
          have := List.find?_some hf
          rwa [beq_iff_eq] at this
        omega
    rw [hR]
    cases hf : (sortDesc es).find? (fun e => e.date == b) with
    | none => exact ⟨by trivial, by trivial⟩
    | some e =>
      have hdate : e.date = b := by
        have := List.find?_some hf
        rwa [beq_iff_eq] at this
      have hcomp : e.completed = false :=
        hmiss e ((sortDesc_perm es).subset (List.mem_of_find?_eq_some hf)) hdate
      simp [hcomp]
  | succ n ih =>
    intro c s hbc hcb
    have hcgt : b < c := by omega
    rw [currentStreakLoop_succ h (sortDesc es),
      currentStreakLoop_succ h (sortDesc (es.filter (fun e => decide (b < e.date)))),
      lookup_filter_gt hnd hcgt]
    by_cases hc : isDateActive c h.targetDays = true
    · rw [if_pos hc, if_pos hc]
      cases hf : (sortDesc es).find? (fun e => e.date == c) with
      | none => exact ⟨by trivial, by trivial⟩
      | some e =>
        cases hec : e.completed with
        | false => simp only [hec, Bool.false_eq_true, if_false]; exact ⟨by trivial, by trivial⟩
        | true =>
          simp only [hec, if_true]
          by_cases hsd : c - 1 < h.startDate
          · rw [if_pos hsd, if_pos hsd]
            exact ⟨by trivial, by trivial⟩
          · rw [if_neg hsd, if_neg hsd]
            exact ih (c - 1) (s + 1) (by omega) (by omega)
    · rw [if_neg hc, if_neg hc]
      exact ih (c - 1) s (by omega) (by omega)

/-- C2.  If some scheduled day b strictly before today carries no
completed entry (it is absent or explicitly marked missed), then the
backward walk terminates within today - b iterations, and the computed
current streak counts no day at or before b: removing every entry dated
at or before b leaves the result unchanged.  Entry dates are assumed
pairwise distinct (the spec's one-entry-per-date invariant). -/
theorem current_streak_ignores_before_break (h : Habit) (es : List HabitEntry)
    (today b : Int) (hnd : (es.map (fun e => e.date)).Nodup) (hb : b < today)
    (hact : isDateActive b h.targetDays = true)
    (hmiss : ∀ e ∈ es, e.date = b → e.completed = false) :
    calculateCurrentStreak h es today ((today - b).toNat)
      = calculateCurrentStreak h (es.filter (fun e => decide (b < e.date))) today
          ((today - b).toNat)
    ∧ (calculateCurrentStreak h es today ((today - b).toNat)).isSome := by
  have hF : (today - b).toNat = (today - 1 - b).toNat + 1 := by omega
  have hloop := currentStreakLoop_break_agree h es hnd b hact hmiss
    ((today - 1 - b).toNat) (today - 1)
  rw [calculateCurrentStreak_eq, calculateCurrentStreak_eq]
  by_cases hes : es.isEmpty
  · have hnil : es = [] := List.isEmpty_iff.1 hes
    subst hnil
    exact ⟨by trivial, by trivial⟩
  · rw [if_neg hes]
    by_cases hes' : (es.filter (fun e => decide (b < e.date))).isEmpty
    · rw [if_pos hes']
      have hnil : es.filter (fun e => decide (b < e.date)) = [] :=
        List.isEmpty_iff.1 hes'
      have hseed : (sortDesc es).find? (fun e => e.date == today) = none := by
        rw [← lookup_filter_gt hnd hb, hnil]
        rfl
      rw [hseed]
      dsimp only
      by_cases hta : isDateActive today h.targetDays = true
      · rw [if_pos hta]
        exact ⟨by trivial, by trivial⟩
      · rw [if_neg hta, hF]
        obtain ⟨heq, hsome⟩ := hloop 0 (by omega) rfl
        obtain ⟨r, hr⟩ := Option.isSome_iff_exists.1 hsome
        have hr' := hr
        rw [heq, hnil] at hr'
        have hr0 : r = 0 := currentStreakLoop_nil_value h _ _ _ _ hr'
        subst hr0
        refine ⟨hr, ?_⟩
        rw [hr]
        trivial
    · rw [if_neg hes', lookup_filter_gt hnd hb]
      cases hf : (sortDesc es).find? (fun e => e.date == today) with
      | some e =>
        cases hec : e.completed with
        | true =>
          simp only [hec, if_true]
          rw [hF]
          exact hloop 1 (by omega) rfl
        | false =>
          simp only [hec, Bool.false_eq_true, if_false]
          by_cases hta : isDateActive today h.targetDays = true
          · rw [if_pos hta, if_pos hta]
            exact ⟨by trivial, by trivial⟩
          · rw [if_neg hta, if_neg hta, hF]
            exact hloop 0 (by omega) rfl
      | none =>
        by_cases hta : isDateActive today h.targetDays = true
        · rw [if_pos hta, if_pos hta]
          exact ⟨by trivial, by trivial⟩
        · rw [if_neg hta, if_neg hta, hF]
          exact hloop 0 (by omega) rfl

/-- Witness for C2: weekdays habit, completed entries on Tue 2024-01-09
and Wed 2024-01-10, today = Wed 2024-01-10, breaker day b = Mon
2024-01-08 (scheduled, no entry). -/
theorem current_streak_ignores_before_break_witness :
    calculateCurrentStreak ⟨.weekdays, 0⟩
        [⟨daysFromCivil 2024 1 10, true⟩, ⟨daysFromCivil 2024 1 9, true⟩]
        (daysFromCivil 2024 1 10)
        ((daysFromCivil 2024 1 10 - daysFromCivil 2024 1 8).toNat)
      = calculateCurrentStreak ⟨.weekdays, 0⟩
          ([⟨daysFromCivil 2024 1 10, true⟩, ⟨daysFromCivil 2024 1 9, true⟩].filter
            (fun e => decide (daysFromCivil 2024 1 8 < e.date)))
          (daysFromCivil 2024 1 10)
          ((daysFromCivil 2024 1 10 - daysFromCivil 2024 1 8).toNat)
    ∧ (calculateCurrentStreak ⟨.weekdays, 0⟩
        [⟨daysFromCivil 2024 1 10, true⟩, ⟨daysFromCivil 2024 1 9, true⟩]
        (daysFromCivil 2024 1 10)
        ((daysFromCivil 2024 1 10 - daysFromCivil 2024 1 8).toNat)).isSome :=
  current_streak_ignores_before_break ⟨.weekdays, 0⟩
    [⟨daysFromCivil 2024 1 10, true⟩, ⟨daysFromCivil 2024 1 9, true⟩]
    (daysFromCivil 2024 1 10) (daysFromCivil 2024 1 8)
    (by decide) (by decide) (by decide) (by decide)

end HabitVault

namespace HabitVault

/-! ### Claim C4: entries on non-scheduled days -/

/-- The walk looks entries up only on scheduled days, so dropping
entries dated on non-scheduled days other than today never changes any
iteration (same fuel, same result, termination included). -/
theorem currentStreakLoop_filter_inactive (h : Habit) (es : List HabitEntry)
    (hnd : (es.map (fun e => e.date)).Nodup) (today : Int) :
    ∀ (fuel : Nat) (c : Int) (s : Nat),
      currentStreakLoop h (sortDesc es) c s fuel
        = currentStreakLoop h (sortDesc (es.filter
            (fun e => isDateActive e.date h.targetDays || e.date == today))) c s fuel := by
  intro fuel
  induction fuel with
  | zero => intro c s; rfl
  | succ n ih =>
    intro c s
    rw [currentStreakLoop_succ h (sortDesc es),
      currentStreakLoop_succ h (sortDesc (es.filter
        (fun e => isDateActive e.date h.targetDays || e.date == today)))]
    by_cases hc : isDateActive c h.targetDays = true
    · have hlookup : (sortDesc (es.filter
          (fun e => isDateActive e.date h.targetDays || e.date == today))).find?
            (fun e => e.date == c)
          = (sortDesc es).find? (fun e => e.date == c) := by
        rw [lookup_sortDesc_eq hnd c, lookup_sortDesc_eq (nodup_dates_filter hnd _) c]
        exact find?_filter_of_imp (fun a _ hpa => by
          rw [beq_iff_eq] at hpa
          rw [hpa, hc]
          rfl)
      rw [if_pos hc, if_pos hc, hlookup]
      cases hf : (sortDesc es).find? (fun e => e.date == c) with
      | none => rfl
      | some e =>
        cases hec : e.completed with
        | false => simp only [hec, Bool.false_eq_true, if_false]
        | true =>
          simp only [hec, if_true]
          by_cases hsd : c - 1 < h.startDate
          · rw [if_pos hsd, if_pos hsd]
          · rw [if_neg hsd, if_neg hsd]
            exact ih (c - 1) (s + 1)
    · rw [if_neg hc, if_neg hc]
      exact ih (c - 1) s

/-- longestGo never reads a non-completed entry's fields, so they can be
dropped from the scanned list. -/
theorem longestGo_cons (h : Habit) (e : HabitEntry) (rest : List HabitEntry)
    (prev : Option Int) (cur lg : Nat) :
    longestGo h (e :: rest) prev cur lg =
      if e.completed then
        match prev with
        | none => longestGo h rest (some e.date) 1 (max lg 1)
        | some p =>
          let diff := (e.date - p).natAbs
          let newCur :=
            if diff = 1 then cur + 1
            else if gapFreeOfActive h p diff then cur + 1
            else 1
          longestGo h rest (some e.date) newCur (max lg newCur)
      else longestGo h rest prev cur lg := rfl

theorem longestGo_filter_completed (h : Habit) :
    ∀ (l : List HabitEntry) (prev : Option Int) (cur lg : Nat),
      longestGo h l prev cur lg
        = longestGo h (l.filter (fun e => e.completed)) prev cur lg := by
  intro l
  induction l with
  | nil => intro prev cur lg; rfl
  | cons e rest ih =>
    intro prev cur lg
    cases hec : e.completed with
    | true =>
      rw [List.filter_cons_of_pos (by simpa using hec), longestGo_cons, longestGo_cons]
      simp only [hec, if_true]
      cases prev with
      | none => exact ih _ _ _
      | some p => exact ih _ _ _
    | false =>
      rw [List.filter_cons_of_neg (by simpa using hec), longestGo_cons]
      simp only [hec, Bool.false_eq_true, if_false]
      exact ih _ _ _

/-- Two permuted lists that are both sorted by date and have
pairwise-distinct dates are equal. -/
theorem sorted_unique_dates_eq {l₁ l₂ : List HabitEntry} (hp : l₁.Perm l₂)
    (hs₁ : l₁.Sorted dateLE) (hs₂ : l₂.Sorted dateLE)
    (hnd : (l₁.map (fun e => e.date)).Nodup) : l₁ = l₂ := by
  have hnd₂ : (l₂.map (fun e => e.date)).Nodup := ((hp.map _).nodup_iff).1 hnd
  have hne₁ : l₁.Pairwise (fun a b => a.date ≠ b.date) := List.pairwise_map.1 hnd
  have hne₂ : l₂.Pairwise (fun a b => a.date ≠ b.date) := List.pairwise_map.1 hnd₂
  have hlt₁ : l₁.Sorted dateLT :=
    (hs₁.and hne₁).imp (fun hab => lt_of_le_of_ne hab.1 hab.2)
  have hlt₂ : l₂.Sorted dateLT :=
    (hs₂.and hne₂).imp (fun hab => lt_of_le_of_ne hab.1 hab.2)
  exact List.eq_of_perm_of_sorted hp hlt₁ hlt₂

/-- Sorting and filtering commute on entry lists with distinct dates. -/
theorem sortAsc_filter (es : List HabitEntry) (q : HabitEntry → Bool)
    (hnd : (es.map (fun e => e.date)).Nodup) :
    sortAsc (es.filter q) = (sortAsc es).filter q := by
  refine sorted_unique_dates_eq
    ((sortAsc_perm _).trans ((sortAsc_perm es).filter q).symm)
    (List.sorted_insertionSort dateLE _)
    ((List.sorted_insertionSort dateLE es).filter q)
    ?_
  exact (List.Perm.nodup_iff ((sortAsc_perm _).map _)).2 (nodup_dates_filter hnd q)

/-- Unfolding of calculateLongestStreak (definitional). -/
theorem calculateLongestStreak_eq (h : Habit) (entries : List HabitEntry) :
    calculateLongestStreak h entries
      = if entries.isEmpty then 0 else longestGo h (sortAsc entries) none 0 0 := rfl

/-- calculateLongestStreak only sees the completed entries of the
ascending list (the empty-list guard agrees with the scan of an empty
list). -/
theorem calculateLongestStreak_filtered (h : Habit) (es : List HabitEntry) :
    calculateLongestStreak h es
      = longestGo h ((sortAsc es).filter (fun e => e.completed)) none 0 0 := by
  rw [calculateLongestStreak_eq]
  by_cases hes : es.isEmpty
  · rw [if_pos hes]
    have hnil : es = [] := List.isEmpty_iff.1 hes
    subst hnil
    rfl
  · rw [if_neg hes]
    exact longestGo_filter_completed h (sortAsc es) none 0 0

/-- Dropping non-completed entries on non-scheduled days never changes
the longest streak (distinct dates). -/
theorem longest_drop_missed_inactive (h : Habit) (es : List HabitEntry)
    (hnd : (es.map (fun e => e.date)).Nodup) :
    calculateLongestStreak h es
      = calculateLongestStreak h
          (es.filter (fun e => e.completed || isDateActive e.date h.targetDays)) := by
  rw [calculateLongestStreak_filtered, calculateLongestStreak_filtered,
    sortAsc_filter es _ hnd, List.filter_filter]
  congr 1
  apply List.filter_congr
  intro a _
  cases hac : a.completed <;> simp [hac]

/-- C4 (amended).  Removing entries dated on non-scheduled days other
than today never changes the current streak (same result at the same
fuel, termination included), and removing non-completed entries on
non-scheduled days never changes the longest streak; entry dates are
pairwise distinct (the one-entry-per-date invariant).  The claim's
unrestricted form is false: the seed counts a completed entry on a
non-scheduled today, and the forward scan counts completed entries on
non-scheduled days (counterexample). -/
theorem streaks_drop_nonscheduled (h : Habit) (es : List HabitEntry) (today : Int)
    (fuel : Nat) (r : Nat) (hnd : (es.map (fun e => e.date)).Nodup) :
    (calculateCurrentStreak h es today fuel = some r →
      calculateCurrentStreak h
        (es.filter (fun e => isDateActive e.date h.targetDays || e.date == today))
        today fuel = some r)
    ∧ calculateLongestStreak h es
        = calculateLongestStreak h
            (es.filter (fun e => e.completed || isDateActive e.date h.targetDays)) := by
  refine ⟨?_, longest_drop_missed_inactive h es hnd⟩
  intro hr
  rw [calculateCurrentStreak_eq] at hr
  rw [calculateCurrentStreak_eq]
  by_cases hes : es.isEmpty
  · have hnil : es = [] := List.isEmpty_iff.1 hes
    subst hnil
    exact hr
  · rw [if_neg hes] at hr
    have hseed : (sortDesc (es.filter
        (fun e => isDateActive e.date h.targetDays || e.date == today))).find?
          (fun e => e.date == today)
        = (sortDesc es).find? (fun e => e.date == today) := by
      rw [lookup_sortDesc_eq hnd today, lookup_sortDesc_eq (nodup_dates_filter hnd _) today]
      exact find?_filter_of_imp (fun a _ hpa => by rw [Bool.or_eq_true]; exact Or.inr hpa)
    by_cases hes' : (es.filter
        (fun e => isDateActive e.date h.targetDays || e.date == today)).isEmpty
    · rw [if_pos hes']
      have hnil : es.filter
          (fun e => isDateActive e.date h.targetDays || e.date == today) = [] :=
        List.isEmpty_iff.1 hes'
      have hseed0 : (sortDesc es).find? (fun e => e.date == today) = none := by
        rw [← hseed, hnil]
        rfl
      rw [hseed0] at hr
      dsimp only at hr
      by_cases hta : isDateActive today h.targetDays = true
      · rw [if_pos hta] at hr
        exact hr
      · rw [if_neg hta, currentStreakLoop_filter_inactive h es hnd today, hnil] at hr
        rw [currentStreakLoop_nil_value h fuel (today - 1) 0 r hr]
    · rw [if_neg hes', hseed]
      cases hf : (sortDesc es).find? (fun e => e.date == today) with
      | some e =>
        rw [hf] at hr
        dsimp only at hr ⊢
        cases hec : e.completed with
        | true =>
          simp only [hec, if_true] at hr ⊢
          rw [← currentStreakLoop_filter_inactive h es hnd today]
          exact hr
        | false =>
          simp only [hec, Bool.false_eq_true, if_false] at hr ⊢
          by_cases hta : isDateActive today h.targetDays = true
          · rw [if_pos hta] at hr ⊢
            exact hr
          · rw [if_neg hta] at hr ⊢
            rw [← currentStreakLoop_filter_inactive h es hnd today]
            exact hr
      | none =>
        rw [hf] at hr
        dsimp only at hr ⊢
        by_cases hta : isDateActive today h.targetDays = true
        · rw [if_pos hta] at hr ⊢
          exact hr
        · rw [if_neg hta] at hr ⊢
          rw [← currentStreakLoop_filter_inactive h es hnd today]
          exact hr

/-- C4 (counterexample).  As stated the claim is false.  Current
streak: a weekdays habit with one completed entry on Saturday
2024-01-06 and today = that Saturday has currentStreak 1, but removing
the (non-scheduled-day) entry gives 0.  Longest streak: completions on
Fri 2024-01-05, Sat 2024-01-06 and Mon 2024-01-08 give longestStreak 3,
but removing the Saturday entry gives 2. -/
theorem streaks_drop_nonscheduled_counterexample :
    isDateActive (daysFromCivil 2024 1 6) .weekdays = false
    ∧ calculateCurrentStreak ⟨.weekdays, 0⟩ [⟨daysFromCivil 2024 1 6, true⟩]
        (daysFromCivil 2024 1 6) 5 = some 1
    ∧ calculateCurrentStreak ⟨.weekdays, 0⟩
        ([⟨daysFromCivil 2024 1 6, true⟩].filter
          (fun e => isDateActive e.date TargetDays.weekdays))
        (daysFromCivil 2024 1 6) 5 = some 0
    ∧ calculateLongestStreak ⟨.weekdays, 0⟩
        [⟨daysFromCivil 2024 1 5, true⟩, ⟨daysFromCivil 2024 1 6, true⟩,
         ⟨daysFromCivil 2024 1 8, true⟩] = 3
    ∧ calculateLongestStreak ⟨.weekdays, 0⟩
        ([⟨daysFromCivil 2024 1 5, true⟩, ⟨daysFromCivil 2024 1 6, true⟩,
          ⟨daysFromCivil 2024 1 8, true⟩].filter
          (fun e => isDateActive e.date TargetDays.weekdays)) = 2 :=
  ⟨by decide, by decide, by decide, by decide, by decide⟩

/-- Witness for the amended C4 theorem: weekdays habit, one completed
entry on Monday 2024-01-08, today = that Monday. -/
theorem streaks_drop_nonscheduled_witness :
    (calculateCurrentStreak ⟨.weekdays, 0⟩ [⟨daysFromCivil 2024 1 8, true⟩]
        (daysFromCivil 2024 1 8) 5 = some 1 →
      calculateCurrentStreak ⟨.weekdays, 0⟩
        ([⟨daysFromCivil 2024 1 8, true⟩].filter
          (fun e => isDateActive e.date TargetDays.weekdays
            || e.date == daysFromCivil 2024 1 8))
        (daysFromCivil 2024 1 8) 5 = some 1)
    ∧ calculateLongestStreak ⟨.weekdays, 0⟩ [⟨daysFromCivil 2024 1 8, true⟩]
        = calculateLongestStreak ⟨.weekdays, 0⟩
            ([⟨daysFromCivil 2024 1 8, true⟩].filter
              (fun e => e.completed || isDateActive e.date TargetDays.weekdays)) :=
  streaks_drop_nonscheduled ⟨.weekdays, 0⟩ [⟨daysFromCivil 2024 1 8, true⟩]
    (daysFromCivil 2024 1 8) 5 1 (by decide)

end HabitVault

namespace HabitVault

/-! ### Claim C5: server stats versus client calculators -/

theorem mem_runEntries : ∀ (n : Nat) (t : Int) (e : HabitEntry),
    e ∈ runEntries t n → e.completed = true ∧ t - n < e.date ∧ e.date ≤ t := by
  intro n
  induction n with
  | zero => intro t e he; exact absurd he (List.not_mem_nil e)
  | succ m ih =>
    intro t e he
    rcases List.mem_cons.1 he with rfl | he'
    · refine ⟨rfl, ?_, le_refl t⟩
      show t - ((m + 1 : Nat) : Int) < t
      push_cast
      omega
    · obtain ⟨h1, h2, h3⟩ := ih (t - 1) e he'
      refine ⟨h1, ?_, ?_⟩ <;> push_cast at h2 h3 ⊢ <;> omega

theorem runEntries_length : ∀ (n : Nat) (t : Int), (runEntries t n).length = n := by
  intro n
  induction n with
  | zero => intro t; rfl
  | succ m ih => intro t; simp [runEntries, ih]

theorem runEntries_sorted : ∀ (n : Nat) (t : Int), (runEntries t n).Sorted dateGE := by
  intro n
  induction n with
  | zero => intro t; exact List.sorted_nil
  | succ m ih =>
    intro t
    refine List.Pairwise.cons ?_ (ih (t - 1))
    intro b hb
    have hb' := (mem_runEntries m (t - 1) b hb).2.2
    show b.date ≤ t
    omega

theorem runEntries_nodup_dates : ∀ (n : Nat) (t : Int),
    ((runEntries t n).map (fun e => e.date)).Nodup := by
  intro n
  induction n with
  | zero => intro t; exact List.nodup_nil
  | succ m ih =>
    intro t
    refine List.Pairwise.cons ?_ (ih (t - 1))
    intro y hy
    obtain ⟨b, hb, rfl⟩ := List.mem_map.1 hy
    have hb' := (mem_runEntries m (t - 1) b hb).2.2
    show ¬ ((⟨t, true⟩ : HabitEntry).date = b.date)
    show ¬ (t = b.date)
    omega

theorem sortDesc_runEntries (n : Nat) (t : Int) :
    sortDesc (runEntries t n) = runEntries t n :=
  (runEntries_sorted n t).insertionSort_eq

theorem mem_ascRun : ∀ (n : Nat) (s : Int) (e : HabitEntry),
    e ∈ ascRun s n → e.completed = true ∧ s ≤ e.date ∧ e.date < s + n := by
  intro n
  induction n with
  | zero => intro s e he; exact absurd he (List.not_mem_nil e)
  | succ m ih =>
    intro s e he
    rcases List.mem_cons.1 he with rfl | he'
    · refine ⟨rfl, le_refl s, ?_⟩
      show s < s + ((m + 1 : Nat) : Int)
      push_cast
      omega
    · obtain ⟨h1, h2, h3⟩ := ih (s + 1) e he'
      refine ⟨h1, ?_, ?_⟩ <;> push_cast at h2 h3 ⊢ <;> omega

theorem ascRun_sorted : ∀ (n : Nat) (s : Int), (ascRun s n).Sorted dateLE := by
  intro n
  induction n with
  | zero => intro s; exact List.sorted_nil
  | succ m ih =>
    intro s
    refine List.Pairwise.cons ?_ (ih (s + 1))
    intro b hb
    have hb' := (mem_ascRun m (s + 1) b hb).2.1
    show s ≤ b.date
    omega

theorem ascRun_snoc : ∀ (n : Nat) (s : Int),
    ascRun s n ++ [⟨s + (n : Int), true⟩] = ascRun s (n + 1) := by
  intro n
  induction n with
  | zero => intro s; simp [ascRun]
  | succ m ih =>
    intro s
    show (⟨s, true⟩ :: ascRun (s + 1) m) ++ [⟨s + ((m + 1 : Nat) : Int), true⟩]
        = ⟨s, true⟩ :: ascRun (s + 1) (m + 1)
    rw [List.cons_append]
    have hdate : s + ((m + 1 : Nat) : Int) = (s + 1) + (m : Int) := by push_cast; ring
    rw [hdate]
    exact congrArg _ (ih (s + 1))

theorem reverse_runEntries : ∀ (n : Nat) (t : Int),
    (runEntries t n).reverse = ascRun (t - n + 1) n := by
  intro n
  induction n with
  | zero => intro t; rfl
  | succ m ih =>
    intro t
    show (⟨t, true⟩ :: runEntries (t - 1) m).reverse = ascRun (t - (m + 1 : Nat) + 1) (m + 1)
    rw [List.reverse_cons, ih (t - 1)]
    have h1 : (t - 1) - (m : Int) + 1 = t - ((m + 1 : Nat) : Int) + 1 := by push_cast; ring
    rw [h1]
    have h2 : (t - ((m + 1 : Nat) : Int) + 1) + (m : Int) = t := by push_cast; ring
    rw [show ((⟨t, true⟩ : HabitEntry))
        = (⟨(t - ((m + 1 : Nat) : Int) + 1) + (m : Int), true⟩ : HabitEntry) from by rw [h2]]
    exact ascRun_snoc m _

theorem sortAsc_runEntries (n : Nat) (t : Int) :
    sortAsc (runEntries t n) = ascRun (t - n + 1) n := by
  have hperm : (runEntries t n).Perm (ascRun (t - n + 1) n) := by
    rw [← reverse_runEntries n t]
    exact ((runEntries t n).reverse_perm).symm
  refine sorted_unique_dates_eq ((sortAsc_perm _).trans hperm)
    (List.sorted_insertionSort dateLE _) (ascRun_sorted n _) ?_
  exact (List.Perm.nodup_iff ((sortAsc_perm _).map _)).2 (runEntries_nodup_dates n t)

theorem serverCurrentGo_cons (e : HabitEntry) (rest : List HabitEntry) :
    serverCurrentGo (e :: rest)
      = if e.completed then serverCurrentGo rest + 1 else 0 := rfl

theorem serverLongestGo_cons (e : HabitEntry) (rest : List HabitEntry) (temp lg : Nat) :
    serverLongestGo (e :: rest) temp lg
      = if e.completed then serverLongestGo rest (temp + 1) lg
        else serverLongestGo rest 0 (max lg temp) := rfl

theorem serverCurrentGo_all : ∀ (l : List HabitEntry),
    (∀ e ∈ l, e.completed = true) → serverCurrentGo l = l.length := by
  intro l
  induction l with
  | nil => intro _; rfl
  | cons e rest ih =>
    intro hall
    rw [serverCurrentGo_cons, if_pos (hall e (List.mem_cons_self e rest)),
      ih (fun a ha => hall a (List.mem_cons_of_mem e ha)), List.length_cons]

theorem serverLongestGo_all : ∀ (l : List HabitEntry),
    (∀ e ∈ l, e.completed = true) →
    ∀ (temp lg : Nat), serverLongestGo l temp lg = max lg (temp + l.length) := by
  intro l
  induction l with
  | nil => intro _ temp lg; rfl
  | cons e rest ih =>
    intro hall temp lg
    rw [serverLongestGo_cons, if_pos (hall e (List.mem_cons_self e rest)),
      ih (fun a ha => hall a (List.mem_cons_of_mem e ha)) (temp + 1) lg, List.length_cons]
    omega

end HabitVault

namespace HabitVault

theorem find_runEntries_some : ∀ (n : Nat) (t : Int) (i : Nat), i < n →
    (runEntries t n).find? (fun e => e.date == t - (i : Int)) = some ⟨t - (i : Int), true⟩ := by
  intro n
  induction n with
  | zero => intro t i hi; exact absurd hi (by omega)
  | succ m ih =>
    intro t i hi
    cases i with
    | zero =>
      show (⟨t, true⟩ :: runEntries (t - 1) m).find?
          (fun e => e.date == t - ((0 : Nat) : Int)) = some ⟨t - ((0 : Nat) : Int), true⟩
      have h0 : t - ((0 : Nat) : Int) = t := by push_cast; ring
      rw [h0]
      exact List.find?_cons_of_pos _ (by simp)
    | succ j =>
      show (⟨t, true⟩ :: runEntries (t - 1) m).find?
          (fun e => e.date == t - ((j + 1 : Nat) : Int)) = some ⟨t - ((j + 1 : Nat) : Int), true⟩
      rw [List.find?_cons_of_neg]
      · have harith : t - ((j + 1 : Nat) : Int) = (t - 1) - (j : Int) := by push_cast; ring
        rw [harith]
        exact ih (t - 1) j (by omega)
      · show ¬ ((t : Int) == t - ((j + 1 : Nat) : Int)) = true
        simp only [beq_iff_eq]
        push_cast
        omega

theorem find_runEntries_none : ∀ (n : Nat) (t d : Int), (d ≤ t - n ∨ t < d) →
    (runEntries t n).find? (fun e => e.date == d) = none := by
  intro n
  induction n with
  | zero => intro t d _; rfl
  | succ m ih =>
    intro t d hd
    show (⟨t, true⟩ :: runEntries (t - 1) m).find? (fun e => e.date == d) = none
    rw [List.find?_cons_of_neg]
    · refine ih (t - 1) d ?_
      push_cast at hd ⊢
      omega
    · show ¬ ((t : Int) == d) = true
      simp only [beq_iff_eq]
      push_cast at hd
      omega

/-- The client walk over a gap-free completed run counts down to the
run's first day and stops just below it: having already counted j days
(standing at checkDate today - j) it finishes with the run length n. -/
theorem walk_runEntries (h : Habit) (hEv : h.targetDays = TargetDays.everyday)
    (t : Int) (n : Nat) (hstart : h.startDate ≤ t - n) :
    ∀ (k j : Nat), j + k = n → 1 ≤ j →
      currentStreakLoop h (runEntries t n) (t - (j : Int)) j (k + 1) = some n := by
  intro k
  induction k with
  | zero =>
    intro j hjk hj
    rw [currentStreakLoop_succ]
    have hact : isDateActive (t - (j : Int)) h.targetDays = true := by rw [hEv]; rfl
    rw [if_pos hact, find_runEntries_none n t (t - (j : Int)) (Or.inl (by omega))]
    have hj' : j = n := by omega
    rw [hj']
  | succ m ih =>
    intro j hjk hj
    rw [currentStreakLoop_succ]
    have hact : isDateActive (t - (j : Int)) h.targetDays = true := by rw [hEv]; rfl
    rw [if_pos hact, find_runEntries_some n t j (by omega)]
    dsimp only
    rw [if_pos rfl, if_neg (by omega : ¬ (t - (j : Int)) - 1 < h.startDate)]
    have harith : (t - (j : Int)) - 1 = t - ((j + 1 : Nat) : Int) := by push_cast; ring
    rw [harith]
    exact ih (j + 1) (by omega) (by omega)

theorem ascRun_succ (s : Int) (m : Nat) :
    ascRun s (m + 1) = ⟨s, true⟩ :: ascRun (s + 1) m := rfl

theorem longestGo_cons_completed_none (h : Habit) (d : Int) (rest : List HabitEntry)
    (cur lg : Nat) :
    longestGo h (⟨d, true⟩ :: rest) none cur lg
      = longestGo h rest (some d) 1 (max lg 1) := rfl

theorem longestGo_cons_completed_some (h : Habit) (d p : Int) (rest : List HabitEntry)
    (cur lg : Nat) :
    longestGo h (⟨d, true⟩ :: rest) (some p) cur lg
      = (if (d - p).natAbs = 1 then
          longestGo h rest (some d) (cur + 1) (max lg (cur + 1))
        else if gapFreeOfActive h p (d - p).natAbs then
          longestGo h rest (some d) (cur + 1) (max lg (cur + 1))
        else longestGo h rest (some d) 1 (max lg 1)) := by
  rw [longestGo_cons]
  dsimp only
  rw [if_pos rfl]
  by_cases h1 : ((d : Int) - p).natAbs = 1
  · rw [if_pos h1, if_pos h1]
  · rw [if_neg h1, if_neg h1]
    by_cases h2 : gapFreeOfActive h p (d - p).natAbs = true
    · rw [if_pos h2, if_pos h2]
    · rw [if_neg h2, if_neg h2]

/-- The forward scan over a gap-free completed run starting right after
the previous date extends the running streak once per day. -/
theorem longestGo_ascRun (h : Habit) : ∀ (n : Nat) (s p : Int) (cur lg : Nat),
    1 ≤ n → p = s - 1 →
    longestGo h (ascRun s n) (some p) cur lg = max lg (cur + n) := by
  intro n
  induction n with
  | zero => intro s p cur lg h1 _; exact absurd h1 (by omega)
  | succ m ih =>
    intro s p cur lg _ hp
    rw [ascRun_succ, longestGo_cons_completed_some]
    have hdiff : ((s : Int) - p).natAbs = 1 := by
      rw [hp]
      omega
    rw [if_pos hdiff]
    cases m with
    | zero =>
      show max lg (cur + 1) = max lg (cur + 1)
      rfl
    | succ m' =>
      rw [ih (s + 1) s (cur + 1) (max lg (cur + 1)) (by omega) (by ring)]
      omega

/-- C5 (amended).  The server-side and client-side computations are not
extensionally equal (counterexample), but they agree on the family of
inputs where their readings coincide: an everyday-rule habit whose
entry set is a gap-free run of n ≥ 1 completed days ending today, with
the start date no later than the run (so the walk's start-date break
does not fire early).  Both compute currentStreak = longestStreak = n,
the client walk finishing within fuel n. -/
theorem server_client_agree_on_runs (today : Int) (n : Nat) (h : Habit)
    (hEv : h.targetDays = TargetDays.everyday) (hstart : h.startDate ≤ today - n)
    (hn : 1 ≤ n) :
    serverCurrentStreak (runEntries today n) = n
    ∧ serverLongestStreak (runEntries today n) = n
    ∧ calculateCurrentStreak h (runEntries today n) today n = some n
    ∧ calculateLongestStreak h (runEntries today n) = n := by
  have hall : ∀ e ∈ runEntries today n, e.completed = true :=
    fun e he => (mem_runEntries n today e he).1
  refine ⟨?_, ?_, ?_, ?_⟩
  · show serverCurrentGo (sortDesc (runEntries today n)) = n
    rw [sortDesc_runEntries, serverCurrentGo_all _ hall, runEntries_length]
  · show serverLongestGo (sortDesc (runEntries today n)) 0 0 = n
    rw [sortDesc_runEntries, serverLongestGo_all _ hall 0 0, runEntries_length]
    omega
  · obtain ⟨m, rfl⟩ : ∃ m, n = m + 1 := ⟨n - 1, by omega⟩
    rw [calculateCurrentStreak_eq]
    have hne : ¬ (runEntries today (m + 1)).isEmpty = true := by
      simp [runEntries]
    rw [if_neg hne, sortDesc_runEntries]
    have hfind := find_runEntries_some (m + 1) today 0 (by omega)
    have h0 : today - ((0 : Nat) : Int) = today := by push_cast; ring
    rw [h0] at hfind
    rw [hfind]
    dsimp only
    rw [if_pos rfl]
    have h1 : (today : Int) - 1 = today - ((1 : Nat) : Int) := by push_cast; ring
    rw [h1]
    exact walk_runEntries h hEv today (m + 1) hstart m 1 (by omega) (by omega)
  · rw [calculateLongestStreak_eq]
    have hne : ¬ (runEntries today n).isEmpty = true := by
      obtain ⟨m, rfl⟩ : ∃ m, n = m + 1 := ⟨n - 1, by omega⟩
      simp [runEntries]
    rw [if_neg hne, sortAsc_runEntries]
    obtain ⟨m, rfl⟩ : ∃ m, n = m + 1 := ⟨n - 1, by omega⟩
    rw [ascRun_succ, longestGo_cons_completed_none]
    cases m with
    | zero => rfl
    | succ m' =>
      rw [longestGo_ascRun h (m' + 1) _ _ 1 (max 0 1) (by omega) (by ring)]
      omega

/-- C5 (counterexample).  The two implementations are not extensionally
equal: for an everyday habit with a single completed entry nine days
before today, the server reports currentStreak 1 while the client
reports 0; for completed entries on days 0 and 100, the server reports
longestStreak 2 while the client (which inspects the gap days, all
scheduled) reports 1. -/
theorem server_client_disagree :
    serverCurrentStreak [⟨19700, true⟩] = 1
    ∧ calculateCurrentStreak ⟨.everyday, 0⟩ [⟨19700, true⟩] 19710 50 = some 0
    ∧ serverLongestStreak [⟨0, true⟩, ⟨100, true⟩] = 2
    ∧ calculateLongestStreak ⟨.everyday, 0⟩ [⟨0, true⟩, ⟨100, true⟩] = 1 :=
  ⟨by decide, by decide, by decide, by decide⟩

/-- Witness for the amended C5 theorem: three completed days ending at
day 10 under the everyday rule, habit started at day 0. -/
theorem server_client_agree_on_runs_witness :
    serverCurrentStreak (runEntries 10 3) = 3
    ∧ serverLongestStreak (runEntries 10 3) = 3
    ∧ calculateCurrentStreak ⟨.everyday, 0⟩ (runEntries 10 3) 10 3 = some 3
    ∧ calculateLongestStreak ⟨.everyday, 0⟩ (runEntries 10 3) = 3 :=
  server_client_agree_on_runs 10 3 ⟨.everyday, 0⟩ rfl (by decide) (by decide)

end HabitVault

namespace HabitVault

/-! ### Claim C3: longestStreak is at least currentStreak -/

/-- The scan's result is never below the best value already seen. -/
theorem longestGo_ge_best (h : Habit) :
    ∀ (l : List HabitEntry) (prev : Option Int) (cur lg : Nat),
      lg ≤ longestGo h l prev cur lg := by
  intro l
  induction l with
  | nil => intro prev cur lg; exact le_refl lg
  | cons e rest ih =>
    intro prev cur lg
    rw [longestGo_cons]
    cases hec : e.completed with
    | false =>
      simp only [Bool.false_eq_true, if_false]
      exact ih prev cur lg
    | true =>
      simp only [if_true]
      cases prev with
      | none => exact le_trans (le_max_left lg 1) (ih _ _ _)
      | some p =>
        dsimp only
        exact le_trans (le_max_left lg _) (ih _ _ _)

theorem chainLinked_head_lt (h : Habit) {hd : Int} {tl : List Int}
    (hc : ChainLinked h (hd :: tl)) : ∀ d ∈ tl, hd < d := by
  have hpw : (hd :: tl).Pairwise (fun a b : Int => a < b) :=
    List.chain'_iff_pairwise.1 (hc.imp (fun _ _ hab => hab.1))
  exact (List.pairwise_cons.1 hpw).1

/-- Sufficient condition for the source's inner gap loop to declare a
run unbroken: every strictly intermediate day is non-scheduled. -/
theorem gapFree_of_forall (h : Habit) (p : Int) (diff : Nat)
    (hx : ∀ x : Int, p < x → x < p + (diff : Int) → isDateActive x h.targetDays = false) :
    gapFreeOfActive h p diff = true := by
  unfold gapFreeOfActive
  rw [List.all_eq_true]
  intro i hi
  have hmem := List.mem_range'_1.1 hi
  have h1 : isDateActive (p + (i : Int)) h.targetDays = false := by
    refine hx _ (by omega) (by omega)
  rw [h1]
  rfl

theorem chainLinkedDesc_reverse (h : Habit) {l : List Int}
    (hl : ChainLinkedDesc h l) : ChainLinked h l.reverse := by
  unfold ChainLinked
  rw [List.chain'_reverse]
  exact hl

end HabitVault

namespace HabitVault

/-- Main scan invariant: given a chain hd :: tl of completed-entry days
with non-scheduled gaps waiting in the (ascending, sorted) remainder of
the scan, and m chain days already absorbed into the running streak
(linked to the scan's previous date by a non-scheduled gap), the scan's
final result is at least m plus the remaining chain length. -/
theorem longestGo_ge_chain (h : Habit) :
    ∀ (s : List HabitEntry) (prev : Option Int) (cur lg m : Nat) (hd : Int) (tl : List Int),
      s.Sorted dateLE →
      (∀ e ∈ s, ∀ p : Int, prev = some p → p ≤ e.date) →
      (∀ d ∈ hd :: tl, ∃ e ∈ s, e.date = d ∧ e.completed = true) →
      ChainLinked h (hd :: tl) →
      (m = 0 ∨ ∃ p : Int, prev = some p ∧ m ≤ cur
        ∧ ∀ x : Int, p < x → x < hd → isDateActive x h.targetDays = false) →
      m + (hd :: tl).length ≤ longestGo h s prev cur lg := by
  intro s
  induction s with
  | nil =>
    intro prev cur lg m hd tl _ _ hwit _ _
    obtain ⟨e, he, _⟩ := hwit hd (List.mem_cons_self hd tl)
    exact absurd he (List.not_mem_nil e)
  | cons e rest ih =>
    intro prev cur lg m hd tl hsort hprev hwit hchain hlink
    obtain ⟨edate, ecomp⟩ := e
    have hsort' : rest.Sorted dateLE := hsort.of_cons
    have hheadle : ∀ e' ∈ rest, edate ≤ e'.date := by
      intro e' he'
      exact (List.pairwise_cons.1 hsort).1 e' he'
    have htl : ∀ d ∈ tl, hd < d := chainLinked_head_lt h hchain
    cases ecomp with
    | false =>
      rw [longestGo_cons]
      dsimp only
      rw [if_neg (by simp)]
      refine ih prev cur lg m hd tl hsort' ?_ ?_ hchain hlink
      · intro e' he' p hp
        exact hprev e' (List.mem_cons_of_mem _ he') p hp
      · intro d hd'
        obtain ⟨x, hx, hxd, hxc⟩ := hwit d hd'
        rcases List.mem_cons.1 hx with rfl | hx'
        · exact absurd hxc (by simp)
        · exact ⟨x, hx', hxd, hxc⟩
    | true =>
      have hprevrest : ∀ e' ∈ rest, ∀ q : Int, (some edate : Option Int) = some q →
          q ≤ e'.date := by
        intro e' he' q hq
        injection hq with hq'
        rw [← hq']
        exact hheadle e' he'
      have hle : edate ≤ hd := by
        obtain ⟨w, hw, hwdate, hwcomp⟩ := hwit hd (List.mem_cons_self hd tl)
        rcases List.mem_cons.1 hw with rfl | hw'
        · exact le_of_eq hwdate
        · have := hheadle w hw'
          omega
      rcases lt_or_eq_of_le hle with hlt | heq
      · -- edate < hd: e precedes the chain head
        have hwit' : ∀ d ∈ hd :: tl, ∃ x ∈ rest, x.date = d ∧ x.completed = true := by
          intro d hd'
          obtain ⟨x, hx, hxd, hxc⟩ := hwit d hd'
          rcases List.mem_cons.1 hx with rfl | hx'
          · have hhdd : hd ≤ d := by
              rcases List.mem_cons.1 hd' with rfl | hd''
              · exact le_refl d
              · exact le_of_lt (htl d hd'')
            have hxd' : edate = d := hxd
            omega
          · exact ⟨x, hx', hxd, hxc⟩
        rw [longestGo_cons]
        dsimp only
        rw [if_pos rfl]
        cases hprevv : prev with
        | none =>
          have hm : m = 0 := by
            rcases hlink with hm | ⟨p, hp, _, _⟩
            · exact hm
            · rw [hprevv] at hp
              exact Option.noConfusion hp
          subst hm
          exact ih (some edate) 1 (max lg 1) 0 hd tl hsort' hprevrest hwit' hchain (Or.inl rfl)
        | some p =>
          dsimp only
          rcases hlink with hm | ⟨p', hp', hcur, hgap⟩
          · subst hm
            have happly : ∀ (cur' lg' : Nat),
                0 + (hd :: tl).length ≤ longestGo h rest (some edate) cur' lg' :=
              fun cur' lg' =>
                ih (some edate) cur' lg' 0 hd tl hsort' hprevrest hwit' hchain (Or.inl rfl)
            by_cases hd1 : (edate - p).natAbs = 1
            · rw [if_pos hd1]
              exact happly _ _
            · rw [if_neg hd1]
              by_cases hd2 : gapFreeOfActive h p (edate - p).natAbs = true
              · rw [if_pos hd2]
                exact happly _ _
              · rw [if_neg hd2]
                exact happly _ _
          · rw [hprevv] at hp'
            injection hp' with hp''
            subst hp''
            have hpe : p ≤ edate := by
              have := hprev ⟨edate, true⟩ (List.mem_cons_self _ _) p hprevv
              exact this
            have hgapF : gapFreeOfActive h p (edate - p).natAbs = true := by
              apply gapFree_of_forall
              intro x hx1 hx2
              exact hgap x hx1 (by omega)
            have hnew : ∀ lg' : Nat,
                m + (hd :: tl).length ≤ longestGo h rest (some edate) (cur + 1) lg' := by
              intro lg'
              refine ih (some edate) (cur + 1) lg' m hd tl hsort' hprevrest hwit' hchain ?_
              exact Or.inr ⟨edate, rfl, by omega, fun x hx1 hx2 => hgap x (by omega) hx2⟩
            by_cases hd1 : (edate - p).natAbs = 1
            · rw [if_pos hd1]
              exact hnew _
            · rw [if_neg hd1, if_pos hgapF]
              exact hnew _
      · -- edate = hd: this entry consumes the chain head
        subst heq
        have hwit'' : ∀ d ∈ tl, ∃ x ∈ rest, x.date = d ∧ x.completed = true := by
          intro d hd'
          obtain ⟨x, hx, hxd, hxc⟩ := hwit d (List.mem_cons_of_mem _ hd')
          rcases List.mem_cons.1 hx with rfl | hx'
          · have := htl d hd'
            have hxd' : edate = d := hxd
            omega
          · exact ⟨x, hx', hxd, hxc⟩
        rw [longestGo_cons]
        dsimp only
        rw [if_pos rfl]
        cases hprevv : prev with
        | none =>
          have hm : m = 0 := by
            rcases hlink with hm | ⟨p, hp, _, _⟩
            · exact hm
            · rw [hprevv] at hp
              exact Option.noConfusion hp
          subst hm
          cases tl with
          | nil =>
            show 0 + 1 ≤ longestGo h rest (some edate) 1 (max lg 1)
            exact le_trans (by omega : 0 + 1 ≤ max lg 1) (longestGo_ge_best h rest _ _ _)
          | cons hd₂ tl₂ =>
            have hchain₂ : ChainLinked h (hd₂ :: tl₂) := hchain.tail
            have hgap₂ : ∀ x : Int, edate < x → x < hd₂ →
                isDateActive x h.targetDays = false :=
              (List.chain'_cons.1 hchain).1.2
            have hrec := ih (some edate) 1 (max lg 1) 1 hd₂ tl₂ hsort' hprevrest hwit''
              hchain₂ (Or.inr ⟨edate, rfl, le_refl 1, hgap₂⟩)
            simp only [List.length_cons] at hrec ⊢
            omega
        | some p =>
          dsimp only
          rcases hlink with hm | ⟨p', hp', hcur, hgap⟩
          · subst hm
            have hcons : ∀ cur' : Nat, 1 ≤ cur' →
                0 + (edate :: tl).length ≤ longestGo h rest (some edate) cur' (max lg cur') := by
              intro cur' hcur'
              cases tl with
              | nil =>
                show 0 + 1 ≤ longestGo h rest (some edate) cur' (max lg cur')
                exact le_trans (by omega : 0 + 1 ≤ max lg cur')
                  (longestGo_ge_best h rest _ _ _)
              | cons hd₂ tl₂ =>
                have hchain₂ : ChainLinked h (hd₂ :: tl₂) := hchain.tail
                have hgap₂ : ∀ x : Int, edate < x → x < hd₂ →
                    isDateActive x h.targetDays = false :=
                  (List.chain'_cons.1 hchain).1.2
                have hrec := ih (some edate) cur' (max lg cur') 1 hd₂ tl₂ hsort'
                  hprevrest hwit'' hchain₂ (Or.inr ⟨edate, rfl, hcur', hgap₂⟩)
                simp only [List.length_cons] at hrec ⊢
                omega
            by_cases hd1 : (edate - p).natAbs = 1
            · rw [if_pos hd1]
              exact hcons (cur + 1) (by omega)
            · rw [if_neg hd1]
              by_cases hd2 : gapFreeOfActive h p (edate - p).natAbs = true
              · rw [if_pos hd2]
                exact hcons (cur + 1) (by omega)
              · rw [if_neg hd2]
                exact hcons 1 (by omega)
          · rw [hprevv] at hp'
            injection hp' with hp''
            subst hp''
            have hpe : p ≤ edate := by
              have := hprev ⟨edate, true⟩ (List.mem_cons_self _ _) p hprevv
              exact this
            have hgapF : gapFreeOfActive h p (edate - p).natAbs = true := by
              apply gapFree_of_forall
              intro x hx1 hx2
              exact hgap x hx1 (by omega)
            have hcons : m + (edate :: tl).length
                ≤ longestGo h rest (some edate) (cur + 1) (max lg (cur + 1)) := by
              cases tl with
              | nil =>
                show m + 1 ≤ longestGo h rest (some edate) (cur + 1) (max lg (cur + 1))
                refine le_trans ?_ (longestGo_ge_best h rest _ _ _)
                have : m + 1 ≤ cur + 1 := by omega
                omega
              | cons hd₂ tl₂ =>
                have hchain₂ : ChainLinked h (hd₂ :: tl₂) := hchain.tail
                have hgap₂ : ∀ x : Int, edate < x → x < hd₂ →
                    isDateActive x h.targetDays = false :=
                  (List.chain'_cons.1 hchain).1.2
                have hrec := ih (some edate) (cur + 1) (max lg (cur + 1)) (m + 1) hd₂ tl₂
                  hsort' hprevrest hwit'' hchain₂
                  (Or.inr ⟨edate, rfl, by omega, hgap₂⟩)
                simp only [List.length_cons] at hrec ⊢
                omega
            by_cases hd1 : (edate - p).natAbs = 1
            · rw [if_pos hd1]
              exact hcons
            · rw [if_neg hd1, if_pos hgapF]
              exact hcons

end HabitVault

namespace HabitVault

/-- Every terminating run of the backward walk counts exactly a
descending chain of completed-entry days below the starting day, with
non-scheduled gaps, and leaves only non-scheduled days between the
chain's top and the starting day. -/
theorem currentStreakLoop_chain (h : Habit) (sorted : List HabitEntry) :
    ∀ (fuel : Nat) (c : Int) (s r : Nat),
      currentStreakLoop h sorted c s fuel = some r →
      s ≤ r ∧ ∃ l : List Int,
        ChainLinkedDesc h l
        ∧ (∀ d ∈ l, ∃ e ∈ sorted, e.date = d ∧ e.completed = true)
        ∧ l.length + s = r
        ∧ (∀ d ∈ l, d ≤ c)
        ∧ (∀ hd₀ ∈ l.head?, ∀ x : Int, hd₀ < x → x ≤ c →
            isDateActive x h.targetDays = false) := by
  intro fuel
  induction fuel with
  | zero =>
    intro c s r hr
    exact absurd hr (by simp [currentStreakLoop])
  | succ n ih =>
    intro c s r hr
    rw [currentStreakLoop_succ] at hr
    by_cases hact : isDateActive c h.targetDays = true
    · rw [if_pos hact] at hr
      cases hf : sorted.find? (fun e => e.date == c) with
      | none =>
        rw [hf] at hr
        injection hr with hr'
        refine ⟨le_of_eq hr', [], List.chain'_nil, ?_, by simpa using hr', ?_, ?_⟩
        · intro d hd
          exact absurd hd (List.not_mem_nil d)
        · intro d hd
          exact absurd hd (List.not_mem_nil d)
        · intro hd₀ hh
          exact absurd hh (by simp)
      | some e =>
        rw [hf] at hr
        dsimp only at hr
        have hedate : e.date = c := by
          have := List.find?_some hf
          rwa [beq_iff_eq] at this
        have hemem : e ∈ sorted := List.mem_of_find?_eq_some hf
        cases hec : e.completed with
        | false =>
          rw [hec] at hr
          simp only [Bool.false_eq_true, if_false] at hr
          injection hr with hr'
          refine ⟨le_of_eq hr', [], List.chain'_nil, ?_, by simpa using hr', ?_, ?_⟩
          · intro d hd
            exact absurd hd (List.not_mem_nil d)
          · intro d hd
            exact absurd hd (List.not_mem_nil d)
          · intro hd₀ hh
            exact absurd hh (by simp)
        | true =>
          rw [hec] at hr
          simp only [if_true] at hr
          by_cases hsd : c - 1 < h.startDate
          · rw [if_pos hsd] at hr
            injection hr with hr'
            refine ⟨by omega, [c], List.chain'_singleton c, ?_, ?_, ?_, ?_⟩
            · intro d hd
              rw [List.mem_singleton.1 hd]
              exact ⟨e, hemem, hedate, hec⟩
            · simp only [List.length_singleton]
              omega
            · intro d hd
              rw [List.mem_singleton.1 hd]
            · intro hd₀ hh x hx1 hx2
              have hh' : hd₀ = c := by
                have := hh
                simp at this
                omega
              rw [hh'] at hx1
              exact absurd (lt_of_lt_of_le hx1 hx2) (lt_irrefl c)
          · rw [if_neg hsd] at hr
            obtain ⟨hs1, l', hchain', hwit', hlen', hmem', hhead'⟩ := ih (c - 1) (s + 1) r hr
            refine ⟨by omega, c :: l', ?_, ?_, ?_, ?_, ?_⟩
            · refine List.chain'_cons'.2 ⟨?_, hchain'⟩
              intro y hy
              have hymem : y ∈ l' := List.mem_of_mem_head? hy
              refine ⟨by have := hmem' y hymem; omega, ?_⟩
              intro x hx1 hx2
              exact hhead' y hy x hx1 (by omega)
            · intro d hd
              rcases List.mem_cons.1 hd with rfl | hd'
              · exact ⟨e, hemem, hedate, hec⟩
              · exact hwit' d hd'
            · simp only [List.length_cons]
              omega
            · intro d hd
              rcases List.mem_cons.1 hd with rfl | hd'
              · exact le_refl d
              · exact le_trans (hmem' d hd') (by omega)
            · intro hd₀ hh x hx1 hx2
              have hh' : hd₀ = c := by
                have := hh
                simp at this
                omega
              rw [hh'] at hx1
              exact absurd (lt_of_lt_of_le hx1 hx2) (lt_irrefl c)
    · rw [if_neg hact] at hr
      obtain ⟨hs1, l', hchain', hwit', hlen', hmem', hhead'⟩ := ih (c - 1) s r hr
      refine ⟨hs1, l', hchain', hwit', hlen', ?_, ?_⟩
      · intro d hd
        exact le_trans (hmem' d hd) (by omega)
      · intro hd₀ hh x hx1 hx2
        rcases lt_or_eq_of_le hx2 with hlt | heq2
        · exact hhead' hd₀ hh x hx1 (by omega)
        · rw [heq2]
          exact Bool.eq_false_iff.2 hact

/-- A nonempty descending chain of completed-entry days bounds the
longest streak from below. -/
theorem longest_ge_chainDesc (h : Habit) (es : List HabitEntry) (l : List Int)
    (hne : l ≠ []) (hchain : ChainLinkedDesc h l)
    (hwit : ∀ d ∈ l, ∃ e ∈ es, e.date = d ∧ e.completed = true) :
    l.length ≤ calculateLongestStreak h es := by
  obtain ⟨d₀, hd₀⟩ : ∃ d, d ∈ l := by
    cases l with
    | nil => exact absurd rfl hne
    | cons a b => exact ⟨a, List.mem_cons_self a b⟩
  obtain ⟨e₀, he₀, _, _⟩ := hwit d₀ hd₀
  have hes : ¬ es.isEmpty = true := by
    cases es with
    | nil => exact absurd he₀ (List.not_mem_nil e₀)
    | cons a b => simp
  rw [calculateLongestStreak_eq, if_neg hes]
  have hrev : ChainLinked h l.reverse := chainLinkedDesc_reverse h hchain
  obtain ⟨hd, tl, hrevlist⟩ : ∃ hd tl, l.reverse = hd :: tl := by
    cases hrl : l.reverse with
    | nil =>
      rw [List.reverse_eq_nil_iff] at hrl
      exact absurd hrl hne
    | cons a b => exact ⟨a, b, rfl⟩
  have hlen : l.length = (hd :: tl).length := by
    rw [← hrevlist, List.length_reverse]
  rw [hlen]
  have hmain := longestGo_ge_chain h (sortAsc es) none 0 0 0 hd tl
    (List.sorted_insertionSort dateLE es)
    (fun e' _ p hp => Option.noConfusion hp)
    (fun d hd' => by
      obtain ⟨e, he, hdate, hcomp⟩ := hwit d (by
        rw [← List.mem_reverse, hrevlist]
        exact hd')
      exact ⟨e, (sortAsc_perm es).symm.subset he, hdate, hcomp⟩)
    (by rw [← hrevlist]; exact hrev)
    (Or.inl rfl)
  simpa using hmain

/-- C3.  Whenever the backward current-streak walk terminates, its
result is bounded by the longest streak: every day the walk counts has
a completed entry, consecutive counted days enclose only non-scheduled
days, and the forward scan of calculateLongestStreak accumulates at
least that run. -/
theorem longest_ge_current (h : Habit) (es : List HabitEntry) (today : Int)
    (fuel : Nat) (cs : Nat)
    (hcs : calculateCurrentStreak h es today fuel = some cs) :
    cs ≤ calculateLongestStreak h es := by
  rw [calculateCurrentStreak_eq] at hcs
  by_cases hes : es.isEmpty
  · rw [if_pos hes] at hcs
    injection hcs with hcs'
    rw [← hcs']
    exact Nat.zero_le _
  · rw [if_neg hes] at hcs
    have hwalk0 : ∀ cs' : Nat,
        currentStreakLoop h (sortDesc es) (today - 1) 0 fuel = some cs' →
        cs' ≤ calculateLongestStreak h es := by
      intro cs' hcs'
      obtain ⟨_, l, hchain, hwit, hlen, hmem, hhead⟩ :=
        currentStreakLoop_chain h (sortDesc es) fuel (today - 1) 0 cs' hcs'
      cases l with
      | nil =>
        have h0 : cs' = 0 := by simpa using hlen.symm
        rw [h0]
        exact Nat.zero_le _
      | cons a b =>
        have hge := longest_ge_chainDesc h es (a :: b) (by simp) hchain
          (fun d hd => by
            obtain ⟨e', he', h1, h2⟩ := hwit d hd
            exact ⟨e', (sortDesc_perm es).subset he', h1, h2⟩)
        have hl : (a :: b).length = cs' := by simpa using hlen
        omega
    cases hf : (sortDesc es).find? (fun e => e.date == today) with
    | some e =>
      rw [hf] at hcs
      dsimp only at hcs
      have hedate : e.date = today := by
        have := List.find?_some hf
        rwa [beq_iff_eq] at this
      have hemem : e ∈ es := (sortDesc_perm es).subset (List.mem_of_find?_eq_some hf)
      cases hec : e.completed with
      | true =>
        rw [hec] at hcs
        simp only [if_true] at hcs
        obtain ⟨hs1, l, hchain, hwit, hlen, hmem, hhead⟩ :=
          currentStreakLoop_chain h (sortDesc es) fuel (today - 1) 1 cs hcs
        have hchainfull : ChainLinkedDesc h (today :: l) := by
          refine List.chain'_cons'.2 ⟨?_, hchain⟩
          intro y hy
          have hymem := List.mem_of_mem_head? hy
          refine ⟨by have := hmem y hymem; omega, ?_⟩
          intro x hx1 hx2
          exact hhead y hy x hx1 (by omega)
        have hwitfull : ∀ d ∈ today :: l, ∃ e' ∈ es, e'.date = d ∧ e'.completed = true := by
          intro d hd
          rcases List.mem_cons.1 hd with rfl | hd'
          · exact ⟨e, hemem, hedate, hec⟩
          · obtain ⟨e', he', h1, h2⟩ := hwit d hd'
            exact ⟨e', (sortDesc_perm es).subset he', h1, h2⟩
        have hge := longest_ge_chainDesc h es (today :: l) (by simp) hchainfull hwitfull
        simp only [List.length_cons] at hge
        omega
      | false =>
        rw [hec] at hcs
        simp only [Bool.false_eq_true, if_false] at hcs
        by_cases hta : isDateActive today h.targetDays = true
        · rw [if_pos hta] at hcs
          injection hcs with h0
          rw [← h0]
          exact Nat.zero_le _
        · rw [if_neg hta] at hcs
          exact hwalk0 cs hcs
    | none =>
      rw [hf] at hcs
      dsimp only at hcs
      by_cases hta : isDateActive today h.targetDays = true
      · rw [if_pos hta] at hcs
        injection hcs with h0
        rw [← h0]
        exact Nat.zero_le _
      · rw [if_neg hta] at hcs
        exact hwalk0 cs hcs

/-- Witness for C3: the weekdays scenario habit with today =
2024-01-08, where the walk returns 6 within 50 iterations and the
longest streak is also at least 6. -/
theorem longest_ge_current_witness :
    calculateCurrentStreak habitC8 entriesC8 (daysFromCivil 2024 1 8) 50 = some 6
    ∧ 6 ≤ calculateLongestStreak habitC8 entriesC8 :=
  ⟨by decide,
    longest_ge_current habitC8 entriesC8 (daysFromCivil 2024 1 8) 50 6 (by decide)⟩

end HabitVault
